import Mathlib

/-!
Verification of the StyleCheck word-generator service (`src/main.py`).

The development shallowly embeds the Python source into Lean:

* strings are `List Char` (helper `chars` turns a Lean string literal into one);
* `sanitize_and_parse_json`, `build_prompt`, `call_hf`, `generate` and `root`
  are direct translations of the functions of the same names in `main.py`;
* `json.loads` is modelled by `parseJson`, an executable JSON parser over a
  `Json` value type (numbers are modelled as integers; fraction/exponent
  forms and the exact text of Python's `JSONDecodeError` are abstracted —
  no claim depends on them);
* the single regex substitution
  `re.sub(r"^\x60\x60\x60(?:json)?\s*|\s*\x60\x60\x60$", "", s, IGNORECASE)`
  is modelled by `stripLeadFence` followed by `stripTrailFence`: the first
  alternative is anchored at the string start, the second must end at the
  string end, and the substitution scans left to right, so on an already
  whitespace-stripped string (the only way the source calls it) the two
  removals are exactly an anchored leading and trailing removal;
* `re.search(r"\{.*\}", s, DOTALL)` — greedy, hence from the first brace to
  the last closing brace — is modelled by `firstBraceSpan`;
* the HTTP layer is modelled by explicit outcome values: an
  `HTTPException(status, detail)` becomes `Outcome.httpError`, an exception
  that no handler catches becomes `Outcome.crash`, and the upstream endpoint
  is a parameter `upstream : List Char → HTTPResponse` mapping the built
  prompt to the reply of the single outbound POST.
-/

/-- Shorthand: the character list of a string literal. -/
def chars (s : String) : List Char := s.data

/-- The backtick character (code fences). -/
def btick : Char := Char.ofNat 96

/-- The opening curly brace character. -/
def lbrace : Char := Char.ofNat 123

/-- The closing curly brace character. -/
def rbrace : Char := Char.ofNat 125

/-- Python `str.strip()` / regex `\s` whitespace (ASCII part, which is all the
theorems exercise): space, tab, newline, carriage return, vertical tab,
form feed. -/
def pyWS (c : Char) : Bool :=
  c = ' ' || c = '\t' || c = '\n' || c = '\r' || c = Char.ofNat 11 || c = Char.ofNat 12

/-- Python `str.strip()`: drop whitespace from both ends. -/
def pyStrip (l : List Char) : List Char :=
  ((l.dropWhile pyWS).reverse.dropWhile pyWS).reverse

/-- `startsL n h` decides whether `n` is an initial segment of `h`. -/
def startsL : List Char → List Char → Bool
  | [], _ => true
  | _ :: _, [] => false
  | a :: as, b :: bs => a == b && startsL as bs

/-- `containsSub n h` decides whether `n` occurs contiguously inside `h`. -/
def containsSub (n h : List Char) : Bool :=
  match h with
  | [] => startsL n []
  | _ :: t => startsL n h || containsSub n t

/-- JSON interchange whitespace, as skipped by `json.loads`. -/
def jsonWS (c : Char) : Bool :=
  c = ' ' || c = '\t' || c = '\n' || c = '\r'

def skipWS (l : List Char) : List Char := l.dropWhile jsonWS

/-- JSON values as produced by `json.loads`: objects are ordered key/value
lists (Python dicts preserve insertion order; the source never relies on
duplicate keys). Numbers are modelled as integers. -/
inductive Json where
  | null
  | bool (b : Bool)
  | num (i : Int)
  | str (s : List Char)
  | arr (xs : List Json)
  | obj (kvs : List (List Char × Json))

/-- Decimal digit character, by explicit table. -/
def digitChar10 : Nat → Char
  | 0 => '0' | 1 => '1' | 2 => '2' | 3 => '3' | 4 => '4'
  | 5 => '5' | 6 => '6' | 7 => '7' | 8 => '8' | _ => '9'

/-- Hexadecimal digit character (lower case), by explicit table. -/
def hexDig : Nat → Char
  | 0 => '0' | 1 => '1' | 2 => '2' | 3 => '3' | 4 => '4'
  | 5 => '5' | 6 => '6' | 7 => '7' | 8 => '8' | 9 => '9'
  | 10 => 'a' | 11 => 'b' | 12 => 'c' | 13 => 'd' | 14 => 'e' | _ => 'f'

/-- Decimal digits of a natural number, accumulator form; structural on a
fuel argument so that it reduces in the kernel (`natDigs` supplies `n`
itself as fuel, which is ample since a number has at most `n` digits). -/
def natDigsFuel : Nat → Nat → List Char → List Char
  | 0, n, acc => digitChar10 n :: acc
  | fuel + 1, n, acc =>
    if n < 10 then digitChar10 n :: acc
    else natDigsFuel fuel (n / 10) (digitChar10 (n % 10) :: acc)

def natDigs (n : Nat) : List Char := natDigsFuel n n []

/-- Serialization of one string character, as a strict JSON serializer
(escape quote, backslash, and control characters) writes it. -/
def escChar (c : Char) : List Char :=
  if c = '"' then ['\\', '"']
  else if c = '\\' then ['\\', '\\']
  else if c = '\n' then ['\\', 'n']
  else if c = '\t' then ['\\', 't']
  else if c = '\r' then ['\\', 'r']
  else if c = Char.ofNat 8 then ['\\', 'b']
  else if c = Char.ofNat 12 then ['\\', 'f']
  else if c.toNat < 32 then
    ['\\', 'u', '0', '0', hexDig (c.toNat / 16), hexDig (c.toNat % 16)]
  else [c]

def escList : List Char → List Char
  | [] => []
  | c :: t => escChar c ++ escList t

def serStr (s : List Char) : List Char := '"' :: escList s ++ ['"']

def serInt (i : Int) : List Char :=
  if i < 0 then '-' :: natDigs i.natAbs else natDigs i.toNat

/- Modelled from the spec: serialization of a JSON value (the repository
never serializes — serialization only appears in the spec's hypothetical
"a valid JSON object that is serialized"). Compact separators. -/
mutual
def serVal : Json → List Char
  | .null => chars "null"
  | .bool true => chars "true"
  | .bool false => chars "false"
  | .num i => serInt i
  | .str s => serStr s
  | .arr [] => [ '[', ']' ]
  | .arr (x :: xs) => '[' :: (serVal x ++ serElemsRest xs ++ [']'])
  | .obj [] => [lbrace, rbrace]
  | .obj ((k, v) :: kvs) =>
      lbrace :: (serStr k ++ ':' :: serVal v ++ serMembersRest kvs ++ [rbrace])

def serElemsRest : List Json → List Char
  | [] => []
  | x :: xs => ',' :: (serVal x ++ serElemsRest xs)

def serMembersRest : List (List Char × Json) → List Char
  | [] => []
  | (k, v) :: kvs => ',' :: (serStr k ++ ':' :: serVal v ++ serMembersRest kvs)
end

/- Fuel needed by the fueled parser, one unit per parsing step. -/
mutual
def sizeJ : Json → Nat
  | .null => 1
  | .bool _ => 1
  | .num _ => 1
  | .str _ => 1
  | .arr xs => 1 + sizeL xs
  | .obj kvs => 1 + sizeM kvs

def sizeL : List Json → Nat
  | [] => 0
  | x :: xs => 1 + sizeJ x + sizeL xs

def sizeM : List (List Char × Json) → Nat
  | [] => 0
  | (_, v) :: kvs => 1 + sizeJ v + sizeM kvs
end

/-- Numeric value of a hexadecimal digit character. -/
def hexVal (c : Char) : Option Nat :=
  if '0' ≤ c && c ≤ '9' then some (c.toNat - 48)
  else if 'a' ≤ c && c ≤ 'f' then some (c.toNat - 87)
  else if 'A' ≤ c && c ≤ 'F' then some (c.toNat - 55)
  else none

/- JSON string-body parser (after the opening quote): returns the decoded
content and the remaining input after the closing quote. Mirrors
`json.loads` string handling: the standard escapes, `\uXXXX` with surrogate
pairs, and rejection of raw control characters. -/
mutual
def parseStringBody : List Char → Option (List Char × List Char)
  | [] => none
  | c :: r =>
    if c = '"' then some ([], r)
    else if c = '\\' then parseEscape r
    else if c.toNat < 32 then none
    else (parseStringBody r).map (fun p => (c :: p.1, p.2))

def parseEscape : List Char → Option (List Char × List Char)
  | '"' :: r => (parseStringBody r).map (fun p => ('"' :: p.1, p.2))
  | '\\' :: r => (parseStringBody r).map (fun p => ('\\' :: p.1, p.2))
  | '/' :: r => (parseStringBody r).map (fun p => ('/' :: p.1, p.2))
  | 'n' :: r => (parseStringBody r).map (fun p => ('\n' :: p.1, p.2))
  | 't' :: r => (parseStringBody r).map (fun p => ('\t' :: p.1, p.2))
  | 'r' :: r => (parseStringBody r).map (fun p => ('\r' :: p.1, p.2))
  | 'b' :: r => (parseStringBody r).map (fun p => (Char.ofNat 8 :: p.1, p.2))
  | 'f' :: r => (parseStringBody r).map (fun p => (Char.ofNat 12 :: p.1, p.2))
  | 'u' :: h1 :: h2 :: h3 :: h4 :: r =>
    match hexVal h1, hexVal h2, hexVal h3, hexVal h4 with
    | some a, some b, some c, some d =>
      let n := 4096 * a + 256 * b + 16 * c + d
      if n < 55296 || 57343 < n then
        (parseStringBody r).map (fun p => (Char.ofNat n :: p.1, p.2))
      else if n < 56320 then
        match r with
        | '\\' :: 'u' :: g1 :: g2 :: g3 :: g4 :: r2 =>
          match hexVal g1, hexVal g2, hexVal g3, hexVal g4 with
          | some a2, some b2, some c2, some d2 =>
            let m := 4096 * a2 + 256 * b2 + 16 * c2 + d2
            if 56320 ≤ m && m ≤ 57343 then
              (parseStringBody r2).map (fun p =>
                (Char.ofNat (65536 + (n - 55296) * 1024 + (m - 56320)) :: p.1, p.2))
            else none
          | _, _, _, _ => none
        | _ => none
      else none
    | _, _, _, _ => none
  | _ => none
end

def digitsValAux (acc : Nat) : List Char → Nat
  | [] => acc
  | c :: t => digitsValAux (10 * acc + (c.toNat - 48)) t

def digitsVal (l : List Char) : Nat := digitsValAux 0 l

/-- Parse a nonempty run of decimal digits. -/
def parsePos (l : List Char) : Option (Nat × List Char) :=
  if l.takeWhile Char.isDigit = [] then none
  else some (digitsVal (l.takeWhile Char.isDigit), l.dropWhile Char.isDigit)

/-- Parse a JSON integer (optional minus sign, then digits). -/
def parseNum (l : List Char) : Option (Int × List Char) :=
  match l with
  | [] => none
  | c :: r =>
    if c = '-' then (parsePos r).map (fun p => (-(p.1 : Int), p.2))
    else (parsePos (c :: r)).map (fun p => ((p.1 : Int), p.2))

/- Fueled recursive-descent JSON value parser (one fuel unit per step);
`parseJson` supplies ample fuel. -/
mutual
def parseValue : Nat → List Char → Option (Json × List Char)
  | 0, _ => none
  | n + 1, l =>
    match skipWS l with
    | [] => none
    | c :: r =>
      if c = 'n' then
        match r with
        | 'u' :: 'l' :: 'l' :: r2 => some (.null, r2)
        | _ => none
      else if c = 't' then
        match r with
        | 'r' :: 'u' :: 'e' :: r2 => some (.bool true, r2)
        | _ => none
      else if c = 'f' then
        match r with
        | 'a' :: 'l' :: 's' :: 'e' :: r2 => some (.bool false, r2)
        | _ => none
      else if c = '"' then
        (parseStringBody r).map (fun p => (Json.str p.1, p.2))
      else if c = '[' then
        match skipWS r with
        | [] => none
        | c2 :: r2 =>
          if c2 = ']' then some (.arr [], r2)
          else (parseElems n (c2 :: r2)).map (fun p => (Json.arr p.1, p.2))
      else if c = lbrace then
        match skipWS r with
        | [] => none
        | c2 :: r2 =>
          if c2 = rbrace then some (.obj [], r2)
          else (parseMembers n (c2 :: r2)).map (fun p => (Json.obj p.1, p.2))
      else if c = '-' || c.isDigit then
        (parseNum (c :: r)).map (fun p => (Json.num p.1, p.2))
      else none

def parseElems : Nat → List Char → Option (List Json × List Char)
  | 0, _ => none
  | n + 1, l =>
    match parseValue n l with
    | none => none
    | some (v, r) =>
      match skipWS r with
      | [] => none
      | c :: r2 =>
        if c = ',' then (parseElems n r2).map (fun p => (v :: p.1, p.2))
        else if c = ']' then some ([v], r2)
        else none

def parseMembers : Nat → List Char → Option (List (List Char × Json) × List Char)
  | 0, _ => none
  | n + 1, l =>
    match skipWS l with
    | [] => none
    | c :: r =>
      if c = '"' then
        match parseStringBody r with
        | none => none
        | some (k, r2) =>
          match skipWS r2 with
          | [] => none
          | c2 :: r3 =>
            if c2 = ':' then
              match parseValue n r3 with
              | none => none
              | some (v, r4) =>
                match skipWS r4 with
                | [] => none
                | c3 :: r5 =>
                  if c3 = ',' then
                    (parseMembers n r5).map (fun p => ((k, v) :: p.1, p.2))
                  else if c3 = rbrace then some ([(k, v)], r5)
                  else none
            else none
      else none
end

/-- Model of `json.loads`: one JSON document, whole input consumed up to
trailing whitespace. -/
def parseJson (l : List Char) : Option Json :=
  match parseValue (l.length + 1) l with
  | some (v, rest) => if (skipWS rest).isEmpty then some v else none
  | none => none

/-- Case-insensitive test for the four letters of a `json` fence tag
(regex `(?:json)?` under `re.IGNORECASE`). -/
def ciJson (d1 d2 d3 d4 : Char) : Bool :=
  d1.toLower = 'j' && d2.toLower = 's' && d3.toLower = 'o' && d4.toLower = 'n'

/-- First alternative of the fence substitution: an anchored leading
` ``` `, an optional case-insensitive `json` tag, and the greedy `\s*`
that follows. -/
def stripLeadFence (l : List Char) : List Char :=
  match l with
  | c1 :: c2 :: c3 :: rest =>
    if c1 = btick && c2 = btick && c3 = btick then
      match rest with
      | d1 :: d2 :: d3 :: d4 :: rest2 =>
        if ciJson d1 d2 d3 d4 then rest2.dropWhile pyWS
        else rest.dropWhile pyWS
      | _ => rest.dropWhile pyWS
    else l
  | _ => l

/-- Second alternative of the fence substitution: `\s*` followed by a
trailing ` ``` ` ending at the string end (the substitution's left-to-right
scan finds the leftmost such start, i.e. the whole whitespace run before a
trailing fence). -/
def stripTrailFence (l : List Char) : List Char :=
  match l.reverse with
  | c1 :: c2 :: c3 :: rest =>
    if c1 = btick && c2 = btick && c3 = btick then (rest.dropWhile pyWS).reverse
    else l
  | _ => l

/-- Model of `re.search(r"\{.*\}", s, DOTALL)`: leftmost match start is the
first opening brace, the greedy `.*` runs to the last closing brace. -/
def firstBraceSpan (l : List Char) : Option (List Char) :=
  match l.dropWhile (· != lbrace) with
  | [] => none
  | c :: rest =>
    match rest.reverse.dropWhile (· != rbrace) with
    | [] => none
    | d :: rtail => some (c :: (d :: rtail).reverse)

/-- Does the input continue with a decimal digit? (`false` also for the
empty continuation; the side condition under which a serialized number is
parsed back unchanged.) -/
def headNotDigit : List Char → Bool
  | [] => true
  | c :: _ => !c.isDigit

/-- Boolean form of "the text has an opening brace with a closing brace
somewhere after it" (the condition for `\{.*\}` to match). -/
def hasBracePair (l : List Char) : Bool :=
  match l.dropWhile (· != lbrace) with
  | [] => false
  | _ :: rest => rest.any (· == rbrace)

/-- The `ValueError` message raised when no brace span is found. -/
def noJsonMsg : List Char := chars "No JSON object found in model output."

/-- Stand-in for the (position-dependent) `json.JSONDecodeError` message. -/
def jsonDecodeErrMsg : List Char := chars "Expecting value"

/-- Direct translation of `sanitize_and_parse_json` (`main.py` lines 39-46):
strip whitespace, apply the fence substitution, regex-search the brace span,
`json.loads` the span. `Except.error` models a raised exception. -/
def sanitize_and_parse_json (s : List Char) : Except (List Char) Json :=
  let s1 := pyStrip s
  let s2 := stripTrailFence (stripLeadFence s1)
  match firstBraceSpan s2 with
  | none => .error noJsonMsg
  | some cand =>
    match parseJson cand with
    | some j => .ok j
    | none => .error jsonDecodeErrMsg

/-- Spec-side leading fence strip, as claim C1 words it: remove a leading
fence marker optionally tagged `json` (case-insensitive), nothing more. -/
def specLeadFence (l : List Char) : List Char :=
  match l with
  | c1 :: c2 :: c3 :: rest =>
    if c1 = btick && c2 = btick && c3 = btick then
      match rest with
      | d1 :: d2 :: d3 :: d4 :: rest2 =>
        if ciJson d1 d2 d3 d4 then rest2 else rest
      | _ => rest
    else l
  | _ => l

/-- Spec-side trailing fence strip, as claim C1 words it: remove a trailing
fence marker if present, nothing more. -/
def specTrailFence (l : List Char) : List Char :=
  match l.reverse with
  | c1 :: c2 :: c3 :: rest =>
    if c1 = btick && c2 = btick && c3 = btick then rest.reverse
    else l
  | _ => l

/-- Does a list start with three backticks? (Applied to reversed strings,
this is the trailing-fence test; proof helper.) -/
def triBT : List Char → Bool
  | c1 :: c2 :: c3 :: _ => c1 = btick && c2 = btick && c3 = btick
  | _ => false

/-- The sanitizer pipeline as claim C1 words it: trim, strip a leading and
a trailing fence marker, take the first-brace-to-last-brace span, parse. -/
def sanitizeSpecPipeline (s : List Char) : Except (List Char) Json :=
  match firstBraceSpan (specTrailFence (specLeadFence (pyStrip s))) with
  | none => .error noJsonMsg
  | some cand =>
    match parseJson cand with
    | some j => .ok j
    | none => .error jsonDecodeErrMsg

/-- Fixed text around the attribute string in `build_prompt` (`main.py`
lines 49-61), including the f-string's leading newline. -/
def tmplPre : List Char := chars "\nYou are a fashion product naming and description expert.\n\nBased on the following clothing attributes, create:\n\n1. A 3-word product name\n2. A 5-word product name\n3. An 8-word product name\n4. A short description (2 sentences)\n5. A long description (detailed, include 3-4 bullet points)\n\nClothing Attributes:\n"

/-- Fixed text after the attribute string in `build_prompt` (`main.py`
lines 62-71), including the f-string's trailing newline; `{{`/`}}` in the
f-string denote literal braces. -/
def tmplPost : List Char := chars "\n\nReturn ONLY valid JSON (no markdown fences), exactly:\n\x7b\n  \"three_word_name\": \"...\",\n  \"five_word_name\": \"...\",\n  \"eight_word_name\": \"...\",\n  \"short_description\": \"...\",\n  \"long_description\": [\"point 1\", \"point 2\", \"point 3\"]\n\x7d\n"

/-- Direct translation of `build_prompt` (`main.py` lines 48-71): the
rendered f-string template, `.strip()`-ed. -/
def build_prompt (attributes_text : List Char) : List Char :=
  pyStrip (tmplPre ++ attributes_text ++ tmplPost)

/-- An upstream HTTP reply: status code and raw body text. -/
structure HTTPResponse where
  status : Nat
  text : List Char

/-- What a route handler's execution amounts to: a successful JSON reply, a
raised `HTTPException(status, detail)`, or an exception no handler catches. -/
inductive Outcome where
  | ok (j : Json)
  | httpError (status : Nat) (detail : List Char)
  | crash

def lookupKey : List (List Char × Json) → List Char → Option Json
  | [], _ => none
  | (k', v) :: t, k => if k' = k then some v else lookupKey t k

/-- Python `x[key]` on a parsed JSON value (dict lookup; anything else
raises, modelled as `none`). -/
def getKey : Json → List Char → Option Json
  | .obj kvs, k => lookupKey kvs k
  | _, _ => none

/-- Python `x[i]` on a parsed JSON value (list indexing; anything else
raises, modelled as `none`). -/
def getIdx : Json → Nat → Option Json
  | .arr (x :: _), 0 => some x
  | .arr (_ :: xs), n + 1 => getIdx (.arr xs) n
  | _, _ => none

/-- The unguarded extraction `r.json()["choices"][0]["message"]["content"]`
(`main.py` line 86); `none` models a raised KeyError/IndexError/TypeError. -/
def extractContent (body : Json) : Option Json :=
  (((getKey body (chars "choices")).bind (getIdx · 0)).bind
      (getKey · (chars "message"))).bind (getKey · (chars "content"))

/-- Detail text of the 502 error (`main.py` line 91). -/
def invalidJsonDetail (e raw : List Char) : List Char :=
  chars "Invalid JSON from model: " ++ e ++ chars "\nRaw: " ++ raw

/-- Stand-in for the `AttributeError` text raised when `sanitize_and_parse_json`
is applied to a non-string `content` (its `.strip()` call fails); that
exception is raised inside the `try` block, so the 502 handler catches it. -/
def notAStrMsg : List Char := chars "object has no attribute strip"

/-- Direct translation of `call_hf` (`main.py` lines 73-91), as a function of
the upstream reply to the single POST it issues. A non-200 status raises a
passthrough `HTTPException` (note: the source tests `!= 200`); `r.json()`
and the `content` extraction run outside any `try`, so their failures crash;
only the `sanitize_and_parse_json` call is guarded by the 502 handler. For
the `Raw: {content}` interpolation of a non-string content the Python
`str()` rendering is approximated by `serVal`. -/
def call_hf (resp : HTTPResponse) : Outcome :=
  if resp.status ≠ 200 then .httpError resp.status resp.text
  else
    match parseJson resp.text with
    | none => .crash
    | some body =>
      match extractContent body with
      | none => .crash
      | some (Json.str content) =>
        match sanitize_and_parse_json content with
        | .ok j => .ok j
        | .error e => .httpError 502 (invalidJsonDetail e content)
      | some other => .httpError 502 (invalidJsonDetail notAStrMsg (serVal other))

/-- Request schema (`main.py` lines 34-36): two optional fields; an absent
field and an explicit `null` both become `none`. -/
structure GenerateRequest where
  apparel_type : Option (List Char)
  attributes : Option (List Char)

/-- Detail of the 400 validation error (`main.py` line 101). -/
def badAttrsMsg : List Char := chars "Provide \x27attributes\x27 string from your website."

/-- Direct translation of the `/generate` handler (`main.py` lines 98-104),
parameterized by the upstream endpoint (prompt ↦ reply). `not req.attributes`
is Python-falsy for `None` and for the empty string. -/
def generate (upstream : List Char → HTTPResponse) (req : GenerateRequest) : Outcome :=
  match req.attributes with
  | none => .httpError 400 badAttrsMsg
  | some a =>
    if a = [] then .httpError 400 badAttrsMsg
    else
      match call_hf (upstream (build_prompt a)) with
      | .ok j => .ok (Json.obj [(chars "generated", j)])
      | e => e

/-- Direct translation of the `GET /` handler (`main.py` lines 94-96); the
200 status is FastAPI's default for a handler that returns normally. -/
def root (model_id : List Char) : Nat × Json :=
  (200, Json.obj [(chars "status", Json.str (chars "ok")),
                  (chars "model", Json.str model_id)])

/-! ### Generic list lemmas -/

theorem dropWhile_cons_false {p : Char → Bool} {c : Char} {t : List Char}
    (h : p c = false) : (c :: t).dropWhile p = c :: t := by
  simp [List.dropWhile_cons, h]

theorem dropWhile_append_of_all {p : Char → Bool} {x r : List Char}
    (h : ∀ c ∈ x, p c = true) : (x ++ r).dropWhile p = r.dropWhile p := by
  induction x with
  | nil => rfl
  | cons c t ih =>
    have hc : p c = true := h c (List.mem_cons_self _ _)
    simp only [List.cons_append, List.dropWhile_cons, hc, if_true]
    exact ih fun d hd => h d (List.mem_cons_of_mem _ hd)

theorem dropWhile_append_of_ne {p : Char → Bool} {x : List Char} (r : List Char)
    (h : x.dropWhile p ≠ []) : (x ++ r).dropWhile p = x.dropWhile p ++ r := by
  cases hd : x.dropWhile p with
  | nil => exact absurd hd h
  | cons a s => rw [List.dropWhile_append, hd]; simp

theorem dropWhile_append_stop {p : Char → Bool} {c : Char} (x t : List Char)
    (h : p c = false) : (x ++ c :: t).dropWhile p = x.dropWhile p ++ c :: t := by
  cases hd : x.dropWhile p with
  | nil => rw [List.dropWhile_append, hd]; simp [dropWhile_cons_false h]
  | cons a s => rw [List.dropWhile_append, hd]; simp

theorem dropWhile_head_false {p : Char → Bool} {c : Char} {t : List Char} :
    ∀ {l : List Char}, l.dropWhile p = c :: t → p c = false := by
  intro l
  induction l with
  | nil => intro h; simp at h
  | cons a s ih =>
    intro h
    rw [List.dropWhile_cons] at h
    by_cases ha : p a = true
    · exact ih (by simpa [ha] using h)
    · have ha' : p a = false := by simpa using ha
      simp only [ha', Bool.false_eq_true, if_false, List.cons.injEq] at h
      exact h.1 ▸ ha'

theorem dropWhile_eq_nil_of_all {p : Char → Bool} {x : List Char}
    (h : ∀ c ∈ x, p c = true) : x.dropWhile p = [] := by
  induction x with
  | nil => rfl
  | cons c t ih =>
    have hc : p c = true := h c (List.mem_cons_self _ _)
    simp only [List.dropWhile_cons, hc, if_true]
    exact ih fun d hd => h d (List.mem_cons_of_mem _ hd)

theorem mem_of_mem_dropWhile {p : Char → Bool} {c : Char} {l : List Char}
    (h : c ∈ l.dropWhile p) : c ∈ l := by
  induction l with
  | nil => simp at h
  | cons a s ih =>
    rw [List.dropWhile_cons] at h
    by_cases ha : p a = true
    · simp only [ha, if_true] at h
      exact List.mem_cons_of_mem _ (ih h)
    · have ha' : p a = false := by simpa using ha
      simpa [ha'] using h

theorem mem_of_mem_takeWhile {p : Char → Bool} {c : Char} {l : List Char}
    (h : c ∈ l.takeWhile p) : p c = true ∧ c ∈ l := by
  induction l with
  | nil => simp at h
  | cons a s ih =>
    rw [List.takeWhile_cons] at h
    by_cases ha : p a = true
    · simp only [ha, if_true, List.mem_cons] at h
      rcases h with h | h
      · subst h; exact ⟨ha, List.mem_cons_self _ _⟩
      · exact ⟨(ih h).1, List.mem_cons_of_mem _ (ih h).2⟩
    · have ha' : p a = false := by simpa using ha
      simp [ha'] at h

theorem startsL_self_append : ∀ (n r : List Char), startsL n (n ++ r) = true := by
  intro n
  induction n with
  | nil => intro r; rfl
  | cons c t ih => intro r; simp [startsL, ih r]

theorem containsSub_here (n y : List Char) : containsSub n (n ++ y) = true := by
  have hs := startsL_self_append n y
  cases hn : n ++ y with
  | nil =>
    rw [hn] at hs
    simp only [containsSub]
    exact hs
  | cons c t =>
    rw [hn] at hs
    simp [containsSub, hs]

theorem containsSub_append_left : ∀ (x n h : List Char),
    containsSub n h = true → containsSub n (x ++ h) = true := by
  intro x
  induction x with
  | nil => intro n h hh; simpa using hh
  | cons c t ih =>
    intro n h hh
    have hih := ih n h hh
    simp only [List.cons_append, containsSub, List.append_eq]
    rw [hih]
    simp

theorem containsSub_sandwich (n x y : List Char) : containsSub n (x ++ n ++ y) = true := by
  rw [List.append_assoc]
  exact containsSub_append_left x n (n ++ y) (containsSub_here n y)

/-! ### The prompt template around the attribute text -/

theorem build_prompt_eq (a : List Char) :
    build_prompt a =
      tmplPre.dropWhile pyWS ++ a ++ (tmplPost.reverse.dropWhile pyWS).reverse := by
  unfold build_prompt pyStrip
  rw [List.append_assoc, dropWhile_append_of_ne _ (by decide)]
  rw [List.reverse_append, List.reverse_append, List.append_assoc]
  rw [dropWhile_append_of_ne _ (by decide)]
  simp [List.reverse_append, List.reverse_reverse, List.append_assoc]

/-! ### Claim C7: the prompt builder -/

/-- C7: for every non-empty attributes string, `build_prompt` is a pure total
function (it is a Lean `def`, hence deterministic and defined on every
input) whose output contains the attribute text verbatim and the five
required field names. -/
theorem c7_prompt_contains (a : List Char) (_h : a ≠ []) :
    containsSub a (build_prompt a) = true ∧
    containsSub (chars "three_word_name") (build_prompt a) = true ∧
    containsSub (chars "five_word_name") (build_prompt a) = true ∧
    containsSub (chars "eight_word_name") (build_prompt a) = true ∧
    containsSub (chars "short_description") (build_prompt a) = true ∧
    containsSub (chars "long_description") (build_prompt a) = true := by
  rw [build_prompt_eq]
  refine ⟨containsSub_sandwich _ _ _, ?_, ?_, ?_, ?_, ?_⟩ <;>
    exact containsSub_append_left _ _ _ (by decide)

/-- Witness for C7 at a concrete attribute string. -/
theorem c7_witness :
    chars "Brand: Zara, Fit: Slim" ≠ [] ∧
    containsSub (chars "Brand: Zara, Fit: Slim")
      (build_prompt (chars "Brand: Zara, Fit: Slim")) = true ∧
    containsSub (chars "three_word_name")
      (build_prompt (chars "Brand: Zara, Fit: Slim")) = true ∧
    containsSub (chars "five_word_name")
      (build_prompt (chars "Brand: Zara, Fit: Slim")) = true ∧
    containsSub (chars "eight_word_name")
      (build_prompt (chars "Brand: Zara, Fit: Slim")) = true ∧
    containsSub (chars "short_description")
      (build_prompt (chars "Brand: Zara, Fit: Slim")) = true ∧
    containsSub (chars "long_description")
      (build_prompt (chars "Brand: Zara, Fit: Slim")) = true :=
  ⟨by decide, c7_prompt_contains (chars "Brand: Zara, Fit: Slim") (by decide)⟩

/-! ### Claim C8: the health check -/

/-- C8: `GET /` always returns status 200 with body
`{"status": "ok", "model": <configured model id>}`, for every configured
model id and independently of any upstream endpoint (the handler does not
consult one, so the result is the same whatever `upstream` is). -/
theorem c8_health_check (model_id : List Char) (_upstream : List Char → HTTPResponse) :
    root model_id = (200, Json.obj [(chars "status", Json.str (chars "ok")),
      (chars "model", Json.str model_id)]) := rfl

/-! ### Claim C9: apparel_type noninterference -/

/-- C9: two `/generate` requests with the same `attributes` but different
`apparel_type` values (present or absent) behave identically against any
upstream: the handler never reads `apparel_type`. -/
theorem c9_apparel_type_noninterference (upstream : List Char → HTTPResponse)
    (t1 t2 : Option (List Char)) (a : Option (List Char)) :
    generate upstream ⟨t1, a⟩ = generate upstream ⟨t2, a⟩ := rfl

/-! ### Claim C3: empty attributes are rejected before any network call -/

/-- C3: a `/generate` request whose `attributes` is absent/null (`none`) or
the empty string gets a 400 with a human-readable detail, and the result is
the same for every upstream endpoint — the handler never invokes it, so no
outbound call (and no prompt build) can have happened. -/
theorem c3_empty_attributes_rejected (u1 u2 : List Char → HTTPResponse)
    (req : GenerateRequest)
    (h : req.attributes = none ∨ req.attributes = some []) :
    generate u1 req = .httpError 400 badAttrsMsg ∧
    generate u1 req = generate u2 req := by
  rcases h with h | h <;> simp [generate, h]

/-- Witness for C3: a request with a null attributes field, two distinct
upstreams. -/
theorem c3_witness :
    generate (fun _ => ⟨200, chars "a"⟩) ⟨some (chars "tshirt"), none⟩ =
      .httpError 400 badAttrsMsg ∧
    generate (fun _ => ⟨200, chars "a"⟩) ⟨some (chars "tshirt"), none⟩ =
      generate (fun _ => ⟨500, chars "b"⟩) ⟨some (chars "tshirt"), none⟩ :=
  c3_empty_attributes_rejected _ _ _ (Or.inl rfl)

/-! ### Claim C4: upstream HTTP errors pass through -/

/-- C4: whenever the upstream reply has a non-2xx status, `call_hf` raises a
passthrough `HTTPException` and `/generate` returns the same status with the
upstream's raw body as detail (the handler makes exactly one upstream call
and has no retry path — `generate` consults `upstream` at the single point
shown); in particular a mocked upstream answering 500 "rate limited" yields
exactly status 500, detail "rate limited". -/
theorem c4_upstream_error_passthrough (u : List Char → HTTPResponse)
    (t : Option (List Char)) (a : List Char) (ha : a ≠ [])
    (hs : ¬(200 ≤ (u (build_prompt a)).status ∧ (u (build_prompt a)).status < 300)) :
    generate u ⟨t, some a⟩ =
      .httpError (u (build_prompt a)).status (u (build_prompt a)).text ∧
    generate (fun _ => ⟨500, chars "rate limited"⟩) ⟨t, some a⟩ =
      .httpError 500 (chars "rate limited") := by
  constructor
  · have h200 : (u (build_prompt a)).status ≠ 200 := by omega
    simp [generate, ha, call_hf, h200]
  · simp [generate, ha, call_hf]

/-- Witness for C4: concrete mocked upstream returning 500 "rate limited". -/
theorem c4_witness :
    generate (fun _ => ⟨500, chars "rate limited"⟩) ⟨none, some (chars "Color: Blue")⟩ =
      .httpError ((fun (_ : List Char) => HTTPResponse.mk 500 (chars "rate limited"))
        (build_prompt (chars "Color: Blue"))).status
        ((fun (_ : List Char) => HTTPResponse.mk 500 (chars "rate limited"))
        (build_prompt (chars "Color: Blue"))).text ∧
    generate (fun _ => ⟨500, chars "rate limited"⟩) ⟨none, some (chars "Color: Blue")⟩ =
      .httpError 500 (chars "rate limited") :=
  c4_upstream_error_passthrough (fun _ => ⟨500, chars "rate limited"⟩) none
    (chars "Color: Blue") (by decide) (by decide)

/-! ### Claim C5: sanitizer failure when no brace span exists -/

/-- C5 counterexample: on an input with no brace pair the sanitizer's own
error is the fixed message "No JSON object found in model output.", which
does not reference (contain) the raw input text — contrary to the claim
that the sanitizer's error references the raw input. -/
theorem c5_cex :
    sanitize_and_parse_json (chars "The weather is nice.") = .error noJsonMsg ∧
    containsSub (chars "The weather is nice.") noJsonMsg = false :=
  ⟨rfl, by decide⟩

/-- C5 as amended: if, after trimming and fence stripping, the text has no
opening brace followed by a closing brace, the sanitizer fails with the
fixed descriptive `ValueError` message (the raw text is only attached one
level up, in `call_hf`'s 502 detail — see C6). -/
theorem c5_amended (s : List Char)
    (h : hasBracePair (stripTrailFence (stripLeadFence (pyStrip s))) = false) :
    sanitize_and_parse_json s = .error noJsonMsg := by
  unfold sanitize_and_parse_json
  unfold hasBracePair at h
  cases hd : (stripTrailFence (stripLeadFence (pyStrip s))).dropWhile (· != lbrace) with
  | nil => simp [firstBraceSpan, hd]
  | cons c rest =>
    rw [hd] at h
    have hall : ∀ d ∈ rest.reverse, (d != rbrace) = true := by
      intro d hdm
      have : d ∈ rest := by simpa using hdm
      have := List.any_eq_false.mp h d this
      simpa using this
    simp [firstBraceSpan, hd, dropWhile_eq_nil_of_all hall]

/-- Witness for C5 (amended) at a concrete brace-free input. -/
theorem c5_witness : sanitize_and_parse_json (chars "hello") = .error noJsonMsg :=
  c5_amended (chars "hello") (by decide)

/-! ### Claim C10: malformed 200 replies crash -/

/-- C10 counterexample: a 200 reply whose body has the wrong shape only in
that `content` is a number (not a string) does NOT raise an unhandled
exception — the failure happens inside `sanitize_and_parse_json`'s guarded
call, so the 502 handler catches it. -/
theorem c10_cex :
    call_hf ⟨200, chars "\x7b\"choices\": [\x7b\"message\": \x7b\"content\": 7\x7d\x7d]\x7d"⟩ =
      .httpError 502 (invalidJsonDetail notAStrMsg (chars "7")) ∧
    call_hf ⟨200, chars "\x7b\"choices\": [\x7b\"message\": \x7b\"content\": 7\x7d\x7d]\x7d"⟩ ≠
      .crash := by
  have h1 : call_hf ⟨200, chars "\x7b\"choices\": [\x7b\"message\": \x7b\"content\": 7\x7d\x7d]\x7d"⟩ =
      .httpError 502 (invalidJsonDetail notAStrMsg (chars "7")) := rfl
  exact ⟨h1, by rw [h1]; simp⟩

/-- C10 as amended: when the upstream returns 200 but the path
`choices[0].message.content` cannot be extracted at all (non-JSON body, or
the path missing/ill-typed), the extraction raises an exception caught by
neither the non-200 passthrough nor the 502 handler — the handler crashes.
(If the path exists but holds a non-string, the failure instead occurs
inside the guarded sanitizer call and yields a 502, per the
counterexample.) -/
theorem c10_amended (resp : HTTPResponse) (h200 : resp.status = 200)
    (h : parseJson resp.text = none ∨
      ∃ bj, parseJson resp.text = some bj ∧ extractContent bj = none) :
    call_hf resp = .crash := by
  unfold call_hf
  rw [h200]
  rcases h with h | ⟨bj, h1, h2⟩
  · simp [h]
  · simp [h1, h2]

/-- Witness for C10 (amended): a 200 reply whose JSON body lacks "choices". -/
theorem c10_witness : call_hf ⟨200, chars "\x7b\"nope\": 1\x7d"⟩ = .crash :=
  c10_amended ⟨200, chars "\x7b\"nope\": 1\x7d"⟩ rfl
    (Or.inr ⟨Json.obj [(chars "nope", Json.num 1)], rfl, rfl⟩)

/-! ### Claim C6: unparsable 200 replies yield a diagnostic 502 -/

/-- C6: when the upstream call succeeds at the HTTP level (200) and the
extracted reply text fails the sanitizer/parser, `/generate` returns 502
with a detail containing both the parser's error and the raw reply text. -/
theorem c6_unparsable_reply_502 (u : List Char → HTTPResponse)
    (t : Option (List Char)) (a body content : List Char) (e : List Char)
    (ha : a ≠ [])
    (hu : u (build_prompt a) = ⟨200, body⟩)
    (hb : ∃ bj, parseJson body = some bj ∧ extractContent bj = some (Json.str content))
    (hs : sanitize_and_parse_json content = .error e) :
    generate u ⟨t, some a⟩ = .httpError 502 (invalidJsonDetail e content) ∧
    containsSub e (invalidJsonDetail e content) = true ∧
    containsSub content (invalidJsonDetail e content) = true := by
  rcases hb with ⟨bj, hb1, hb2⟩
  refine ⟨?_, ?_, ?_⟩
  · simp [generate, ha, hu, call_hf, hb1, hb2, hs]
  · unfold invalidJsonDetail
    rw [List.append_assoc]
    exact containsSub_sandwich e (chars "Invalid JSON from model: ")
      (chars "\nRaw: " ++ content)
  · unfold invalidJsonDetail
    have : chars "Invalid JSON from model: " ++ e ++ chars "\nRaw: " ++ content =
        (chars "Invalid JSON from model: " ++ e ++ chars "\nRaw: ") ++ content ++ [] := by
      simp
    rw [this]
    exact containsSub_sandwich content _ []

/-- Witness for C6: a 200 reply whose content has no brace pair. -/
theorem c6_witness :
    generate (fun _ => ⟨200, chars "\x7b\"choices\": [\x7b\"message\": \x7b\"content\": \"no json here\"\x7d\x7d]\x7d"⟩)
      ⟨none, some (chars "x")⟩ =
      .httpError 502 (invalidJsonDetail noJsonMsg (chars "no json here")) ∧
    containsSub noJsonMsg (invalidJsonDetail noJsonMsg (chars "no json here")) = true ∧
    containsSub (chars "no json here")
      (invalidJsonDetail noJsonMsg (chars "no json here")) = true :=
  c6_unparsable_reply_502 _ none (chars "x")
    (chars "\x7b\"choices\": [\x7b\"message\": \x7b\"content\": \"no json here\"\x7d\x7d]\x7d")
    (chars "no json here") noJsonMsg (by decide) rfl
    ⟨Json.obj [(chars "choices", Json.arr [Json.obj [(chars "message",
        Json.obj [(chars "content", Json.str (chars "no json here"))])]])],
      rfl, rfl⟩ rfl

/-! ### Character facts for whitespace and fences -/

theorem pyWS_cases {c : Char} (h : pyWS c = true) :
    c = ' ' ∨ c = '\t' ∨ c = '\n' ∨ c = '\r' ∨ c = Char.ofNat 11 ∨ c = Char.ofNat 12 := by
  have h' := h
  simp only [pyWS, Bool.or_eq_true, decide_eq_true_eq] at h'
  tauto

theorem pyWS_not_brace {c : Char} (h : pyWS c = true) : c ≠ lbrace ∧ c ≠ rbrace := by
  rcases pyWS_cases h with h | h | h | h | h | h <;> subst h <;> exact ⟨by decide, by decide⟩

theorem pyWS_ne_btick {c : Char} (h : pyWS c = true) : c ≠ btick := by
  rcases pyWS_cases h with h | h | h | h | h | h <;> subst h <;> decide

/-! ### The brace-span extraction under brace-free padding -/

theorem firstBraceSpan_sandwich {p q : List Char} (m : List Char)
    (hp : ∀ c ∈ p, c ≠ lbrace ∧ c ≠ rbrace) (hq : ∀ c ∈ q, c ≠ lbrace ∧ c ≠ rbrace) :
    firstBraceSpan (p ++ m ++ q) = firstBraceSpan m := by
  have hp' : ∀ c ∈ p, (c != lbrace) = true := fun c hc => by
    simpa using (hp c hc).1
  have hq' : ∀ c ∈ q, (c != lbrace) = true := fun c hc => by
    simpa using (hq c hc).1
  have hqr : ∀ c ∈ q.reverse, (c != rbrace) = true := fun c hc => by
    simpa using (hq c (List.mem_reverse.mp hc)).2
  unfold firstBraceSpan
  rw [List.append_assoc, dropWhile_append_of_all hp']
  cases hd : m.dropWhile (· != lbrace) with
  | nil =>
    rw [List.dropWhile_append, hd]
    simp [dropWhile_eq_nil_of_all hq']
  | cons c rest =>
    rw [dropWhile_append_of_ne _ (by rw [hd]; exact List.cons_ne_nil _ _), hd]
    simp only [List.cons_append]
    rw [List.reverse_append, dropWhile_append_of_all hqr]

theorem span_ws_pad {w q : List Char} (m : List Char)
    (hw : ∀ c ∈ w, pyWS c = true) (hq : ∀ c ∈ q, pyWS c = true) :
    firstBraceSpan (w ++ m ++ q) = firstBraceSpan m :=
  firstBraceSpan_sandwich m (fun c hc => pyWS_not_brace (hw c hc))
    (fun c hc => pyWS_not_brace (hq c hc))

theorem span_ws_pad_left {w : List Char} (m : List Char)
    (hw : ∀ c ∈ w, pyWS c = true) : firstBraceSpan (w ++ m) = firstBraceSpan m := by
  have := span_ws_pad m hw (q := []) (by simp)
  simpa using this

/-! ### The fence substitution versus the spec's two-marker stripping -/

theorem dropWhile_idem {p : Char → Bool} (l : List Char) :
    (l.dropWhile p).dropWhile p = l.dropWhile p := by
  cases hd : l.dropWhile p with
  | nil => rfl
  | cons c t => exact dropWhile_cons_false (dropWhile_head_false hd)

theorem length_dropWhile_le (p : Char → Bool) (l : List Char) :
    (l.dropWhile p).length ≤ l.length := by
  induction l with
  | nil => simp
  | cons c t ih =>
    rw [List.dropWhile_cons]
    by_cases hc : p c = true
    · simp only [hc, if_true]
      simp only [List.length_cons]
      omega
    · have hc' : p c = false := by simpa using hc
      simp [hc']

theorem head_false_of_dropWhile_fix {p : Char → Bool} {c : Char} {t : List Char}
    (h : (c :: t).dropWhile p = c :: t) : p c = false := by
  by_cases hc : p c = true
  · rw [List.dropWhile_cons, if_pos hc] at h
    have hle := length_dropWhile_le p t
    have hlen := congrArg List.length h
    simp at hlen
    omega
  · simpa using hc

theorem pyStrip_dropWhile (s : List Char) : (pyStrip s).dropWhile pyWS = pyStrip s := by
  unfold pyStrip
  cases hdr : ((s.dropWhile pyWS).reverse.dropWhile pyWS).reverse with
  | nil => rfl
  | cons e es =>
    have hu : s.dropWhile pyWS =
        e :: (es ++ ((s.dropWhile pyWS).reverse.takeWhile pyWS).reverse) := by
      have hsplit := List.takeWhile_append_dropWhile (p := pyWS)
        (l := (s.dropWhile pyWS).reverse)
      have h2 := congrArg List.reverse hsplit
      rw [List.reverse_append, hdr, List.reverse_reverse] at h2
      conv_lhs => rw [← h2]
      simp
    have hfix : (s.dropWhile pyWS).dropWhile pyWS = s.dropWhile pyWS := dropWhile_idem s
    rw [hu] at hfix
    exact dropWhile_cons_false (head_false_of_dropWhile_fix hfix)

theorem srcLead_eq (t : List Char) (ht : t.dropWhile pyWS = t) :
    stripLeadFence t = (specLeadFence t).dropWhile pyWS := by
  rcases t with _ | ⟨c1, _ | ⟨c2, _ | ⟨c3, rest⟩⟩⟩
  · simp [stripLeadFence, specLeadFence]
  · exact (by simpa [stripLeadFence, specLeadFence] using ht.symm)
  · exact (by simpa [stripLeadFence, specLeadFence] using ht.symm)
  · by_cases hb : c1 = btick ∧ c2 = btick ∧ c3 = btick
    · obtain ⟨h1, h2, h3⟩ := hb
      subst h1; subst h2; subst h3
      rcases rest with _ | ⟨d1, _ | ⟨d2, _ | ⟨d3, _ | ⟨d4, rest2⟩⟩⟩⟩
      · simp [stripLeadFence, specLeadFence]
      · simp [stripLeadFence, specLeadFence]
      · simp [stripLeadFence, specLeadFence]
      · simp [stripLeadFence, specLeadFence]
      · by_cases hj : ciJson d1 d2 d3 d4 = true
        · simp [stripLeadFence, specLeadFence, hj]
        · have hj' : ciJson d1 d2 d3 d4 = false := by simpa using hj
          simp [stripLeadFence, specLeadFence, hj']
    · have hcond : (decide (c1 = btick) && decide (c2 = btick) && decide (c3 = btick)) = false := by
        rcases Decidable.em (c1 = btick) with h1 | h1
        · rcases Decidable.em (c2 = btick) with h2 | h2
          · rcases Decidable.em (c3 = btick) with h3 | h3
            · exact absurd ⟨h1, h2, h3⟩ hb
            · simp [h3]
          · simp [h2]
        · simp [h1]
      rw [show stripLeadFence (c1 :: c2 :: c3 :: rest) = c1 :: c2 :: c3 :: rest by
        simp [stripLeadFence, hcond]]
      rw [show specLeadFence (c1 :: c2 :: c3 :: rest) = c1 :: c2 :: c3 :: rest by
        simp [specLeadFence, hcond]]
      exact ht.symm

theorem triBT_short {x : List Char} (h : x.length < 3) : triBT x = false := by
  rcases x with _ | ⟨c1, _ | ⟨c2, _ | ⟨c3, rest⟩⟩⟩
  · rfl
  · rfl
  · rfl
  · simp only [List.length_cons] at h
    omega

theorem triBT_append_ws {x wr : List Char} (hx : x.length < 3)
    (hwr : ∀ c ∈ wr, pyWS c = true) : triBT (x ++ wr) = false := by
  rcases x with _ | ⟨c1, _ | ⟨c2, _ | ⟨c3, rest⟩⟩⟩
  · rcases wr with _ | ⟨e1, _ | ⟨e2, _ | ⟨e3, wrest⟩⟩⟩
    · rfl
    · rfl
    · rfl
    · have h1 : e1 ≠ btick := pyWS_ne_btick (hwr e1 (by simp))
      simp [triBT, h1]
  · rcases wr with _ | ⟨e1, _ | ⟨e2, wrest⟩⟩
    · rfl
    · rfl
    · have h1 : e1 ≠ btick := pyWS_ne_btick (hwr e1 (by simp))
      simp [triBT, h1]
  · rcases wr with _ | ⟨e1, wrest⟩
    · rfl
    · have h1 : e1 ≠ btick := pyWS_ne_btick (hwr e1 (by simp))
      simp [triBT, h1]
  · simp only [List.length_cons] at hx
    omega

theorem stripTrailFence_eq (l : List Char) :
    stripTrailFence l =
      if triBT l.reverse then ((l.reverse.drop 3).dropWhile pyWS).reverse else l := by
  unfold stripTrailFence
  cases hr : l.reverse with
  | nil => simp [triBT]
  | cons c1 r1 =>
    cases r1 with
    | nil => simp [triBT]
    | cons c2 r2 =>
      cases r2 with
      | nil => simp [triBT]
      | cons c3 rest => simp only [triBT, List.drop_succ_cons, List.drop_zero]

theorem specTrailFence_eq (l : List Char) :
    specTrailFence l = if triBT l.reverse then (l.reverse.drop 3).reverse else l := by
  unfold specTrailFence
  cases hr : l.reverse with
  | nil => simp [triBT]
  | cons c1 r1 =>
    cases r1 with
    | nil => simp [triBT]
    | cons c2 r2 =>
      cases r2 with
      | nil => simp [triBT]
      | cons c3 rest => simp only [triBT, List.drop_succ_cons, List.drop_zero]

theorem trail_equiv_rev (r wr : List Char) (hwr : ∀ c ∈ wr, pyWS c = true) :
    firstBraceSpan (stripTrailFence r.reverse) =
    firstBraceSpan (specTrailFence (r ++ wr).reverse) := by
  have hwrrev : ∀ c ∈ wr.reverse, pyWS c = true := fun c hc =>
    hwr c (List.mem_reverse.mp hc)
  rw [stripTrailFence_eq, specTrailFence_eq, List.reverse_reverse, List.reverse_reverse]
  by_cases hlen : r.length < 3
  · rw [triBT_short hlen, triBT_append_ws hlen hwr]
    simp only [Bool.false_eq_true, if_false]
    rw [List.reverse_append]
    exact (span_ws_pad_left r.reverse hwrrev).symm
  · rcases r with _ | ⟨c1, _ | ⟨c2, _ | ⟨c3, rest⟩⟩⟩
    · simp at hlen
    · simp at hlen
    · simp at hlen
    · have htri : triBT (c1 :: c2 :: c3 :: rest ++ wr) = triBT (c1 :: c2 :: c3 :: rest) := by
        simp [triBT]
      rw [htri]
      by_cases ht : triBT (c1 :: c2 :: c3 :: rest) = true
      · rw [ht]
        simp only [if_true, List.drop_succ_cons, List.drop_zero, List.cons_append,
          List.append_eq]
        have hsplit := List.takeWhile_append_dropWhile (p := pyWS) (l := rest)
        conv_rhs =>
          rw [show (rest ++ wr).reverse = wr.reverse ++ rest.reverse from by
            rw [List.reverse_append]]
          rw [show rest = rest.takeWhile pyWS ++ rest.dropWhile pyWS from hsplit.symm]
          rw [show (rest.takeWhile pyWS ++ rest.dropWhile pyWS).reverse =
              (rest.dropWhile pyWS).reverse ++ (rest.takeWhile pyWS).reverse from by
            rw [List.reverse_append]]
        rw [show wr.reverse ++ ((rest.dropWhile pyWS).reverse ++ (rest.takeWhile pyWS).reverse) =
            wr.reverse ++ (rest.dropWhile pyWS).reverse ++ (rest.takeWhile pyWS).reverse from by
          rw [List.append_assoc]]
        rw [span_ws_pad ((rest.dropWhile pyWS).reverse) hwrrev
          (fun c hc => (mem_of_mem_takeWhile (List.mem_reverse.mp hc)).1)]
      · have ht' : triBT (c1 :: c2 :: c3 :: rest) = false := by simpa using ht
        rw [ht']
        simp only [Bool.false_eq_true, if_false]
        rw [List.reverse_append]
        exact (span_ws_pad_left (c1 :: c2 :: c3 :: rest).reverse hwrrev).symm

theorem trail_ws_equiv (a : List Char) :
    firstBraceSpan (stripTrailFence (a.dropWhile pyWS)) =
    firstBraceSpan (specTrailFence a) := by
  have key := trail_equiv_rev ((a.dropWhile pyWS).reverse) ((a.takeWhile pyWS).reverse)
    (fun c hc => (mem_of_mem_takeWhile (List.mem_reverse.mp hc)).1)
  rw [List.reverse_reverse] at key
  have ha : ((a.dropWhile pyWS).reverse ++ (a.takeWhile pyWS).reverse).reverse = a := by
    rw [← List.reverse_append, List.reverse_reverse, List.takeWhile_append_dropWhile]
  rw [ha] at key
  exact key

theorem span_shape {l m : List Char} (h : firstBraceSpan l = some m) :
    ∃ x mid y, l = x ++ lbrace :: (mid ++ rbrace :: y) ∧
      (∀ c ∈ x, c ≠ lbrace) ∧ (∀ c ∈ y, c ≠ rbrace) ∧
      m = lbrace :: mid ++ [rbrace] := by
  unfold firstBraceSpan at h
  cases hd : l.dropWhile (· != lbrace) with
  | nil =>
    simp only [hd] at h
    simp at h
  | cons c rest =>
    simp only [hd] at h
    have hc : c = lbrace := by
      have := dropWhile_head_false hd
      simpa using this
    cases he : rest.reverse.dropWhile (· != rbrace) with
    | nil =>
      simp only [he] at h
      simp at h
    | cons d rtail =>
      simp only [he, Option.some.injEq] at h
      have hdr : d = rbrace := by
        have := dropWhile_head_false he
        simpa using this
      refine ⟨l.takeWhile (· != lbrace), rtail.reverse,
        (rest.reverse.takeWhile (· != rbrace)).reverse, ?_, ?_, ?_, ?_⟩
      · have hl : l = l.takeWhile (· != lbrace) ++ (c :: rest) := by
          conv_lhs => rw [← List.takeWhile_append_dropWhile (p := (· != lbrace)) (l := l)]
          rw [hd]
        have hrest : rest = rtail.reverse ++ rbrace ::
            (rest.reverse.takeWhile (· != rbrace)).reverse := by
          have h2 := congrArg List.reverse
            (List.takeWhile_append_dropWhile (p := (· != rbrace)) (l := rest.reverse))
          rw [List.reverse_append, he, List.reverse_reverse] at h2
          conv_lhs => rw [← h2]
          simp [hdr]
        rw [hc] at hl
        conv_lhs => rw [hl]
        conv_lhs => rw [hrest]
      · intro c' hc'
        have := (mem_of_mem_takeWhile hc').1
        simpa using this
      · intro c' hc'
        have hmem := List.mem_reverse.mp hc'
        have := (mem_of_mem_takeWhile hmem).1
        simpa using this
      · rw [← h, hc, hdr]
        simp

/-! ### Claim C1: the sanitizer pipeline -/

/-- C1: the sanitizer first trims whitespace, then strips a leading fence
marker optionally tagged "json" and a trailing fence marker
(case-insensitive, only if present), then takes the span from the first
`{` to the last `}` inclusive as the candidate, and parses it as JSON.
First conjunct: the source's single regex substitution pipeline equals the
claim's step-by-step pipeline. Second conjunct: the candidate really is the
first-brace-to-last-brace span of the remaining text — everything before it
has no `{`, everything after it has no `}`, and it is brace-delimited
inclusive. -/
theorem c1_sanitizer_pipeline (s : List Char) :
    sanitize_and_parse_json s = sanitizeSpecPipeline s ∧
    (∀ m, firstBraceSpan (specTrailFence (specLeadFence (pyStrip s))) = some m →
      ∃ x mid y, specTrailFence (specLeadFence (pyStrip s)) =
          x ++ lbrace :: (mid ++ rbrace :: y) ∧
        (∀ c ∈ x, c ≠ lbrace) ∧ (∀ c ∈ y, c ≠ rbrace) ∧
        m = lbrace :: mid ++ [rbrace]) := by
  have hspan : firstBraceSpan (stripTrailFence (stripLeadFence (pyStrip s))) =
      firstBraceSpan (specTrailFence (specLeadFence (pyStrip s))) := by
    rw [srcLead_eq (pyStrip s) (pyStrip_dropWhile s)]
    exact trail_ws_equiv (specLeadFence (pyStrip s))
  constructor
  · unfold sanitize_and_parse_json sanitizeSpecPipeline
    dsimp only
    rw [hspan]
  · intro m hm
    exact span_shape hm

/-- Witness for C1 at a concrete fenced reply. -/
theorem c1_witness :
    ∃ x mid y,
      specTrailFence (specLeadFence (pyStrip
        (chars "```json\n\x7b\"a\": 1\x7d\n```"))) =
        x ++ lbrace :: (mid ++ rbrace :: y) ∧
      (∀ c ∈ x, c ≠ lbrace) ∧ (∀ c ∈ y, c ≠ rbrace) ∧
      chars "\x7b\"a\": 1\x7d" = lbrace :: mid ++ [rbrace] :=
  (c1_sanitizer_pipeline (chars "```json\n\x7b\"a\": 1\x7d\n```")).2
    (chars "\x7b\"a\": 1\x7d") rfl

/-! ### Round trip for serialized numbers -/

theorem digitsValAux_append (a : Nat) (xs ys : List Char) :
    digitsValAux a (xs ++ ys) = digitsValAux (digitsValAux a xs) ys := by
  induction xs generalizing a with
  | nil => rfl
  | cons c t ih =>
    rw [List.cons_append]
    rw [show digitsValAux a (c :: (t ++ ys)) =
      digitsValAux (10 * a + (c.toNat - 48)) (t ++ ys) from rfl]
    rw [show digitsValAux a (c :: t) =
      digitsValAux (10 * a + (c.toNat - 48)) t from rfl]
    exact ih _

theorem digitChar10_toNat {k : Nat} (h : k < 10) : (digitChar10 k).toNat = 48 + k := by
  interval_cases k <;> rfl

theorem digitChar10_isDigit (k : Nat) : (digitChar10 k).isDigit = true := by
  rcases k with _|_|_|_|_|_|_|_|_|k9
  all_goals rfl

theorem natDigsFuel_spec : ∀ (fuel n : Nat), n ≤ fuel → ∀ acc,
    ∃ ds, natDigsFuel fuel n acc = ds ++ acc ∧ ds ≠ [] ∧
      (∀ c ∈ ds, c.isDigit = true) ∧
      ∀ a, digitsValAux a ds = a * 10 ^ ds.length + n := by
  intro fuel
  induction fuel with
  | zero =>
    intro n hn acc
    have hn0 : n = 0 := by omega
    subst hn0
    refine ⟨[digitChar10 0], rfl, by simp, ?_, ?_⟩
    · intro c hc
      have hc' : c = digitChar10 0 := by simpa using hc
      subst hc'
      rfl
    · intro a
      show digitsValAux (10 * a + ((digitChar10 0).toNat - 48)) [] = a * 10 ^ 1 + 0
      rw [show digitsValAux (10 * a + ((digitChar10 0).toNat - 48)) [] =
        10 * a + ((digitChar10 0).toNat - 48) from rfl]
      rw [show (digitChar10 0).toNat = 48 from rfl, pow_one]
      omega
  | succ fuel ih =>
    intro n hn acc
    by_cases h10 : n < 10
    · refine ⟨[digitChar10 n], by simp [natDigsFuel, h10], by simp, ?_, ?_⟩
      · intro c hc
        have hc' : c = digitChar10 n := by simpa using hc
        subst hc'
        exact digitChar10_isDigit n
      · intro a
        show digitsValAux (10 * a + ((digitChar10 n).toNat - 48)) [] = a * 10 ^ 1 + n
        rw [show digitsValAux (10 * a + ((digitChar10 n).toNat - 48)) [] =
          10 * a + ((digitChar10 n).toNat - 48) from rfl]
        rw [digitChar10_toNat h10, pow_one]
        omega
    · have hrec : n / 10 ≤ fuel := by omega
      obtain ⟨ds, hds, hne, hdig, hval⟩ := ih (n / 10) hrec (digitChar10 (n % 10) :: acc)
      refine ⟨ds ++ [digitChar10 (n % 10)], ?_, by simp, ?_, ?_⟩
      · rw [show natDigsFuel (fuel + 1) n acc =
            natDigsFuel fuel (n / 10) (digitChar10 (n % 10) :: acc) from by
          simp [natDigsFuel, h10]]
        rw [hds]
        simp
      · intro c hc
        rcases List.mem_append.mp hc with hc | hc
        · exact hdig c hc
        · have hc' : c = digitChar10 (n % 10) := by simpa using hc
          subst hc'
          exact digitChar10_isDigit _
      · intro a
        rw [digitsValAux_append, hval a]
        have hbase : ∀ m : Nat, digitsValAux m [digitChar10 (n % 10)] =
            10 * m + ((digitChar10 (n % 10)).toNat - 48) := fun m => rfl
        rw [hbase]
        rw [digitChar10_toNat (Nat.mod_lt n (by omega))]
        have hmod := Nat.div_add_mod n 10
        have hlen : (ds ++ [digitChar10 (n % 10)]).length = ds.length + 1 := by simp
        rw [hlen, pow_succ]
        have h48 : 48 + n % 10 - 48 = n % 10 := by omega
        rw [h48]
        have h1 : 10 * (a * 10 ^ ds.length + n / 10) + n % 10 =
            a * (10 ^ ds.length * 10) + (10 * (n / 10) + n % 10) := by ring
        rw [h1, hmod]

theorem natDigs_spec (n : Nat) :
    natDigs n ≠ [] ∧ (∀ c ∈ natDigs n, c.isDigit = true) ∧
      digitsVal (natDigs n) = n := by
  obtain ⟨ds, hds, hne, hdig, hval⟩ := natDigsFuel_spec n n (le_refl n) []
  rw [List.append_nil] at hds
  unfold natDigs
  rw [hds]
  refine ⟨hne, hdig, ?_⟩
  unfold digitsVal
  rw [hval 0]
  simp

theorem takeWhile_append_of_all {p : Char → Bool} {x : List Char} (r : List Char)
    (h : ∀ c ∈ x, p c = true) : (x ++ r).takeWhile p = x ++ r.takeWhile p := by
  induction x with
  | nil => rfl
  | cons c t ih =>
    have hc : p c = true := h c (List.mem_cons_self _ _)
    simp only [List.cons_append, List.takeWhile_cons, hc, if_true]
    rw [ih fun d hd => h d (List.mem_cons_of_mem _ hd)]

theorem takeWhile_headNot {p : Char → Bool} {r : List Char}
    (h : ∀ c t, r = c :: t → p c = false) : r.takeWhile p = [] := by
  cases r with
  | nil => rfl
  | cons c t => simp [List.takeWhile_cons, h c t rfl]

theorem parsePos_natDigs (n : Nat) (rest : List Char)
    (h : headNotDigit rest = true) : parsePos (natDigs n ++ rest) = some (n, rest) := by
  obtain ⟨hne, hdig, hval⟩ := natDigs_spec n
  have hrest : rest.takeWhile Char.isDigit = [] := by
    refine takeWhile_headNot fun c t hct => ?_
    subst hct
    simpa [headNotDigit] using h
  have htake : (natDigs n ++ rest).takeWhile Char.isDigit = natDigs n := by
    rw [takeWhile_append_of_all _ hdig, hrest, List.append_nil]
  have hdrop : (natDigs n ++ rest).dropWhile Char.isDigit = rest := by
    rw [dropWhile_append_of_all hdig]
    cases rest with
    | nil => rfl
    | cons c t =>
      refine dropWhile_cons_false ?_
      simpa [headNotDigit] using h
  unfold parsePos
  rw [htake, hdrop, if_neg hne]
  rw [hval]

theorem isDigit_ne_minus {c : Char} (h : c.isDigit = true) : c ≠ '-' := by
  intro hc
  subst hc
  exact absurd h (by decide)

theorem parseNum_serInt (i : Int) (rest : List Char)
    (h : headNotDigit rest = true) : parseNum (serInt i ++ rest) = some (i, rest) := by
  obtain ⟨hne, hdig, _⟩ := natDigs_spec i.natAbs
  by_cases hneg : i < 0
  · rw [show serInt i = '-' :: natDigs i.natAbs from by simp [serInt, hneg]]
    have hps := parsePos_natDigs i.natAbs rest h
    have hi : -(i.natAbs : Int) = i := by omega
    simp only [parseNum, List.cons_append]
    rw [if_pos trivial, hps]
    show some ((-(i.natAbs : Int)), rest) = some (i, rest)
    rw [hi]
  · rw [show serInt i = natDigs i.toNat from by simp [serInt, hneg]]
    obtain ⟨hne2, hdig2, _⟩ := natDigs_spec i.toNat
    obtain ⟨c, t, hd⟩ : ∃ c t, natDigs i.toNat = c :: t := by
      cases h' : natDigs i.toNat with
      | nil => exact absurd h' hne2
      | cons c t => exact ⟨c, t, rfl⟩
    have hc : c.isDigit = true := hdig2 c (by rw [hd]; simp)
    rw [hd]
    simp only [List.cons_append, parseNum]
    rw [if_neg (isDigit_ne_minus hc)]
    rw [← List.cons_append, ← hd, parsePos_natDigs _ _ h]
    have hi : (i.toNat : Int) = i := by omega
    simp [hi]

/-! ### Round trip for serialized strings -/

theorem hexVal_hexDig {k : Nat} (h : k < 16) : hexVal (hexDig k) = some k := by
  interval_cases k <;> rfl

theorem psb_cons (c : Char) (X : List Char) :
    parseStringBody (c :: X) =
      (if c = '"' then some ([], X)
      else if c = '\\' then parseEscape X
      else if c.toNat < 32 then none
      else (parseStringBody X).map (fun p => (c :: p.1, p.2))) := rfl

theorem psb_raw {c : Char} (X : List Char) (h1 : c ≠ '"') (h2 : c ≠ '\\')
    (h3 : ¬(c.toNat < 32)) :
    parseStringBody (c :: X) = (parseStringBody X).map (fun p => (c :: p.1, p.2)) := by
  rw [psb_cons, if_neg h1, if_neg h2, if_neg h3]

theorem parseStringBody_escList (s rest : List Char) :
    parseStringBody (escList s ++ '"' :: rest) = some (s, rest) := by
  induction s with
  | nil => rfl
  | cons c t ih =>
    rw [show escList (c :: t) = escChar c ++ escList t from rfl, List.append_assoc]
    by_cases h32 : c.toNat < 32
    · obtain ⟨k, hk, hceq⟩ : ∃ k, k < 32 ∧ c = Char.ofNat k :=
        ⟨c.toNat, h32, (Char.ofNat_toNat c).symm⟩
      subst hceq
      interval_cases k <;>
        (show (parseStringBody (escList t ++ '"' :: rest)).map _ = _
         rw [ih]
         rfl)
    · by_cases h1 : c = '"'
      · subst h1
        show (parseStringBody (escList t ++ '"' :: rest)).map _ = _
        rw [ih]
        rfl
      · by_cases h2 : c = '\\'
        · subst h2
          show (parseStringBody (escList t ++ '"' :: rest)).map _ = _
          rw [ih]
          rfl
        · have hn1 : c ≠ '\n' := fun h => h32 (h ▸ (by decide))
          have hn2 : c ≠ '\t' := fun h => h32 (h ▸ (by decide))
          have hn3 : c ≠ '\r' := fun h => h32 (h ▸ (by decide))
          have hn4 : c ≠ Char.ofNat 8 := fun h => h32 (h ▸ (by decide))
          have hn5 : c ≠ Char.ofNat 12 := fun h => h32 (h ▸ (by decide))
          rw [show escChar c = [c] from by
            simp [escChar, h1, h2, h32, hn1, hn2, hn3, hn4, hn5]]
          rw [show [c] ++ (escList t ++ '"' :: rest) =
            c :: (escList t ++ '"' :: rest) from rfl]
          rw [psb_raw _ h1 h2 h32, ih]
          rfl

/-! ### Helpers for the fueled parser round trip -/

theorem sizeJ_pos (v : Json) : 1 ≤ sizeJ v := by
  cases v with
  | null => exact le_refl 1
  | bool b => exact le_refl 1
  | num i => exact le_refl 1
  | str s => exact le_refl 1
  | arr xs => show 1 ≤ 1 + sizeL xs; omega
  | obj kvs => show 1 ≤ 1 + sizeM kvs; omega

theorem jsonWS_cases {c : Char} (h : jsonWS c = true) :
    c = ' ' ∨ c = '\t' ∨ c = '\n' ∨ c = '\r' := by
  have h' := h
  simp only [jsonWS, Bool.or_eq_true, decide_eq_true_eq] at h'
  tauto

theorem digit_not_jsonWS {c : Char} (h : c.isDigit = true) : jsonWS c = false := by
  by_cases hw : jsonWS c = true
  · rcases jsonWS_cases hw with h' | h' | h' | h' <;> subst h' <;>
      exact absurd h (by decide)
  · simpa using hw

theorem digit_not_special {c : Char} (h : c.isDigit = true) :
    jsonWS c = false ∧ c ≠ 'n' ∧ c ≠ 't' ∧ c ≠ 'f' ∧ c ≠ '"' ∧ c ≠ '[' ∧
      c ≠ lbrace ∧ c ≠ ']' ∧ c ≠ rbrace ∧ c ≠ ',' ∧ c ≠ ':' := by
  refine ⟨digit_not_jsonWS h, ?_, ?_, ?_, ?_, ?_, ?_, ?_, ?_, ?_, ?_⟩ <;>
    exact fun he => by subst he; exact absurd h (by decide)

theorem serInt_head (i : Int) :
    ∃ c r, serInt i = c :: r ∧ (c = '-' ∨ c.isDigit = true) := by
  by_cases hneg : i < 0
  · exact ⟨'-', natDigs i.natAbs, by simp [serInt, hneg], Or.inl rfl⟩
  · obtain ⟨hne, hdig, _⟩ := natDigs_spec i.toNat
    obtain ⟨c, r, hd⟩ : ∃ c r, natDigs i.toNat = c :: r := by
      cases h' : natDigs i.toNat with
      | nil => exact absurd h' hne
      | cons c r => exact ⟨c, r, rfl⟩
    refine ⟨c, r, by simp [serInt, hneg, hd], Or.inr (hdig c (by rw [hd]; simp))⟩

theorem serVal_head (v : Json) : ∃ c t, serVal v = c :: t ∧ jsonWS c = false ∧
    c ≠ ']' ∧ c ≠ rbrace := by
  cases v with
  | null => exact ⟨'n', ['u', 'l', 'l'], rfl, by decide, by decide, by decide⟩
  | bool b =>
    cases b with
    | true => exact ⟨'t', ['r', 'u', 'e'], rfl, by decide, by decide, by decide⟩
    | false => exact ⟨'f', ['a', 'l', 's', 'e'], rfl, by decide, by decide, by decide⟩
  | num i =>
    obtain ⟨c, r, hcr, hc⟩ := serInt_head i
    refine ⟨c, r, by rw [show serVal (Json.num i) = serInt i from rfl, hcr], ?_, ?_, ?_⟩
    · rcases hc with h | h
      · subst h; decide
      · exact digit_not_jsonWS h
    · rcases hc with h | h
      · subst h; decide
      · exact (digit_not_special h).2.2.2.2.2.2.2.1
    · rcases hc with h | h
      · subst h; decide
      · exact (digit_not_special h).2.2.2.2.2.2.2.2.1
  | str s => exact ⟨'"', escList s ++ ['"'], rfl, by decide, by decide, by decide⟩
  | arr xs =>
    cases xs with
    | nil => exact ⟨'[', [']'], rfl, by decide, by decide, by decide⟩
    | cons x t => exact ⟨'[', serVal x ++ serElemsRest t ++ [']'], rfl,
        by decide, by decide, by decide⟩
  | obj kvs =>
    cases kvs with
    | nil => exact ⟨lbrace, [rbrace], rfl, by decide, by decide, by decide⟩
    | cons kv t =>
      obtain ⟨k, v⟩ := kv
      exact ⟨lbrace, serStr k ++ ':' :: serVal v ++ serMembersRest t ++ [rbrace], rfl,
        by decide, by decide, by decide⟩

theorem headNotDigit_elems (xs : List Json) (rest : List Char) :
    headNotDigit (serElemsRest xs ++ ']' :: rest) = true := by
  cases xs with
  | nil => rfl
  | cons y ys => rfl

theorem headNotDigit_members (kvs : List (List Char × Json)) (rest : List Char) :
    headNotDigit (serMembersRest kvs ++ rbrace :: rest) = true := by
  cases kvs with
  | nil => rfl
  | cons kv t => obtain ⟨k, v⟩ := kv; rfl

theorem skipWS_cons_of {c : Char} (t : List Char) (h : jsonWS c = false) :
    skipWS (c :: t) = c :: t := dropWhile_cons_false h

theorem parseValue_dispatch_num (n : Nat) (c : Char) (r : List Char)
    (hws : jsonWS c = false) (h1 : c ≠ 'n') (h2 : c ≠ 't') (h3 : c ≠ 'f')
    (h4 : c ≠ '"') (h5 : c ≠ '[') (h6 : c ≠ lbrace)
    (h7 : c = '-' ∨ c.isDigit = true) :
    parseValue (n + 1) (c :: r) =
      (parseNum (c :: r)).map (fun p => (Json.num p.1, p.2)) := by
  rw [parseValue, skipWS_cons_of r hws]
  dsimp only
  rw [if_neg h1, if_neg h2, if_neg h3, if_neg h4, if_neg h5, if_neg h6, if_pos]
  rcases h7 with h | h
  · simp [h]
  · simp [h]

theorem parseValue_dispatch_arr (n : Nat) (r : List Char) (c2 : Char)
    (r2 : List Char) (h : skipWS r = c2 :: r2) (hc2 : c2 ≠ ']') :
    parseValue (n + 1) ('[' :: r) =
      (parseElems n (c2 :: r2)).map (fun p => (Json.arr p.1, p.2)) := by
  have hstep : parseValue (n + 1) ('[' :: r) =
      (match skipWS r with
       | [] => none
       | c2 :: r2 =>
         if c2 = ']' then some (Json.arr [], r2)
         else (parseElems n (c2 :: r2)).map (fun p => (Json.arr p.1, p.2))) := rfl
  rw [hstep, h]
  dsimp only
  rw [if_neg hc2]

theorem parseValue_dispatch_obj (n : Nat) (r : List Char) (c2 : Char)
    (r2 : List Char) (h : skipWS r = c2 :: r2) (hc2 : c2 ≠ rbrace) :
    parseValue (n + 1) (lbrace :: r) =
      (parseMembers n (c2 :: r2)).map (fun p => (Json.obj p.1, p.2)) := by
  have hstep : parseValue (n + 1) (lbrace :: r) =
      (match skipWS r with
       | [] => none
       | c2 :: r2 =>
         if c2 = rbrace then some (Json.obj [], r2)
         else (parseMembers n (c2 :: r2)).map (fun p => (Json.obj p.1, p.2))) := rfl
  rw [hstep, h]
  dsimp only
  rw [if_neg hc2]

theorem parse_ser : ∀ n : Nat,
    (∀ v rest, sizeJ v ≤ n → headNotDigit rest = true →
      parseValue n (serVal v ++ rest) = some (v, rest)) ∧
    (∀ x xs rest, 1 + sizeJ x + sizeL xs ≤ n → headNotDigit rest = true →
      parseElems n (serVal x ++ (serElemsRest xs ++ ']' :: rest)) = some (x :: xs, rest)) ∧
    (∀ k v kvs rest, 1 + sizeJ v + sizeM kvs ≤ n → headNotDigit rest = true →
      parseMembers n (serStr k ++ ':' :: (serVal v ++ (serMembersRest kvs ++ rbrace :: rest))) =
        some ((k, v) :: kvs, rest)) := by
  intro n
  induction n with
  | zero =>
    refine ⟨fun v rest hsz _ => ?_, fun x xs rest hsz _ => ?_,
      fun k v kvs rest hsz _ => ?_⟩
    · exact absurd hsz (by have := sizeJ_pos v; omega)
    · exact absurd hsz (by have := sizeJ_pos x; omega)
    · exact absurd hsz (by have := sizeJ_pos v; omega)
  | succ n ih =>
    obtain ⟨ihV, ihE, ihM⟩ := ih
    refine ⟨?_, ?_, ?_⟩
    · intro v rest hsz hrest
      cases v with
      | null => rfl
      | bool b => cases b <;> rfl
      | num i =>
        obtain ⟨c, r, hcr, hc7⟩ := serInt_head i
        have hfacts : jsonWS c = false ∧ c ≠ 'n' ∧ c ≠ 't' ∧ c ≠ 'f' ∧ c ≠ '"' ∧
            c ≠ '[' ∧ c ≠ lbrace := by
          rcases hc7 with h | h
          · subst h
            exact ⟨by decide, by decide, by decide, by decide, by decide,
              by decide, by decide⟩
          · obtain ⟨q1, q2, q3, q4, q5, q6, q7, _⟩ := digit_not_special h
            exact ⟨q1, q2, q3, q4, q5, q6, q7⟩
        obtain ⟨w1, w2, w3, w4, w5, w6, w7⟩ := hfacts
        rw [show serVal (Json.num i) ++ rest = c :: (r ++ rest) from by
          rw [show serVal (Json.num i) = serInt i from rfl, hcr]; simp]
        rw [parseValue_dispatch_num n c (r ++ rest) w1 w2 w3 w4 w5 w6 w7 hc7]
        rw [show c :: (r ++ rest) = serInt i ++ rest from by rw [hcr]; simp]
        rw [parseNum_serInt i rest hrest]
        rfl
      | str s =>
        show (parseStringBody ((escList s ++ ['"']) ++ rest)).map _ = _
        rw [show (escList s ++ ['"']) ++ rest = escList s ++ '"' :: rest from by simp]
        rw [parseStringBody_escList]
        rfl
      | arr xs =>
        cases xs with
        | nil => rfl
        | cons x xs' =>
          obtain ⟨c2, t2, hxt, hws2, hrb, _⟩ := serVal_head x
          have hr : skipWS ((serVal x ++ serElemsRest xs' ++ [']']) ++ rest) =
              c2 :: ((t2 ++ serElemsRest xs' ++ [']']) ++ rest) := by
            rw [hxt]
            rw [show ((c2 :: t2) ++ serElemsRest xs' ++ [']']) ++ rest =
              c2 :: ((t2 ++ serElemsRest xs' ++ [']']) ++ rest) from by simp]
            exact skipWS_cons_of _ hws2
          rw [show serVal (Json.arr (x :: xs')) ++ rest =
            '[' :: ((serVal x ++ serElemsRest xs' ++ [']']) ++ rest) from by
              rw [show serVal (Json.arr (x :: xs')) =
                '[' :: (serVal x ++ serElemsRest xs' ++ [']']) from rfl]
              simp]
          rw [parseValue_dispatch_arr n _ c2 _ hr hrb]
          rw [show c2 :: ((t2 ++ serElemsRest xs' ++ [']']) ++ rest) =
            serVal x ++ (serElemsRest xs' ++ ']' :: rest) from by rw [hxt]; simp]
          have hsz' : 1 + sizeJ x + sizeL xs' ≤ n := by
            have e1 : sizeJ (Json.arr (x :: xs')) = 1 + (1 + sizeJ x + sizeL xs') := rfl
            omega
          rw [ihE x xs' rest hsz' hrest]
          rfl
      | obj kvs =>
        cases kvs with
        | nil => rfl
        | cons kv kvs' =>
          obtain ⟨k, v⟩ := kv
          have hr : skipWS ((serStr k ++ ':' :: serVal v ++ serMembersRest kvs' ++ [rbrace]) ++ rest) =
              '"' :: ((escList k ++ ['"']) ++ (':' :: serVal v ++ serMembersRest kvs' ++ [rbrace]) ++ rest) := by
            rw [show (serStr k ++ ':' :: serVal v ++ serMembersRest kvs' ++ [rbrace]) ++ rest =
              '"' :: ((escList k ++ ['"']) ++ (':' :: serVal v ++ serMembersRest kvs' ++ [rbrace]) ++ rest) from by
                rw [show serStr k = '"' :: (escList k ++ ['"']) from rfl]
                simp]
            exact skipWS_cons_of _ (by decide)
          rw [show serVal (Json.obj ((k, v) :: kvs')) ++ rest =
            lbrace :: ((serStr k ++ ':' :: serVal v ++ serMembersRest kvs' ++ [rbrace]) ++ rest) from by
              rw [show serVal (Json.obj ((k, v) :: kvs')) =
                lbrace :: (serStr k ++ ':' :: serVal v ++ serMembersRest kvs' ++ [rbrace]) from rfl]
              simp]
          rw [parseValue_dispatch_obj n _ '"' _ hr (by decide)]
          rw [show '"' :: ((escList k ++ ['"']) ++ (':' :: serVal v ++ serMembersRest kvs' ++ [rbrace]) ++ rest) =
            serStr k ++ ':' :: (serVal v ++ (serMembersRest kvs' ++ rbrace :: rest)) from by
              rw [show serStr k = '"' :: (escList k ++ ['"']) from rfl]
              simp]
          have hsz' : 1 + sizeJ v + sizeM kvs' ≤ n := by
            have e1 : sizeJ (Json.obj ((k, v) :: kvs')) = 1 + (1 + sizeJ v + sizeM kvs') := rfl
            omega
          rw [ihM k v kvs' rest hsz' hrest]
          rfl
    · intro x xs rest hsz hrest
      have hnd : headNotDigit (serElemsRest xs ++ ']' :: rest) = true :=
        headNotDigit_elems xs rest
      have hsx : sizeJ x ≤ n := by omega
      rw [parseElems]
      rw [ihV x (serElemsRest xs ++ ']' :: rest) hsx hnd]
      cases xs with
      | nil => rfl
      | cons y ys =>
        show (parseElems n ((serVal y ++ serElemsRest ys) ++ ']' :: rest)).map _ = _
        rw [show (serVal y ++ serElemsRest ys) ++ ']' :: rest =
          serVal y ++ (serElemsRest ys ++ ']' :: rest) from by simp]
        have hsz' : 1 + sizeJ y + sizeL ys ≤ n := by
          have e1 : sizeL (y :: ys) = 1 + sizeJ y + sizeL ys := rfl
          omega
        rw [ihE y ys rest hsz' hrest]
        rfl
    · intro k v kvs rest hsz hrest
      have hnd : headNotDigit (serMembersRest kvs ++ rbrace :: rest) = true :=
        headNotDigit_members kvs rest
      have hsv : sizeJ v ≤ n := by omega
      rw [parseMembers]
      rw [show skipWS (serStr k ++ ':' :: (serVal v ++ (serMembersRest kvs ++ rbrace :: rest))) =
        '"' :: ((escList k ++ ['"']) ++ ':' :: (serVal v ++ (serMembersRest kvs ++ rbrace :: rest))) from by
          rw [show serStr k ++ ':' :: (serVal v ++ (serMembersRest kvs ++ rbrace :: rest)) =
            '"' :: ((escList k ++ ['"']) ++ ':' :: (serVal v ++ (serMembersRest kvs ++ rbrace :: rest))) from by
              rw [show serStr k = '"' :: (escList k ++ ['"']) from rfl]
              simp]
          exact skipWS_cons_of _ (by decide)]
      dsimp only
      rw [if_pos rfl]
      rw [show (escList k ++ ['"']) ++ ':' :: (serVal v ++ (serMembersRest kvs ++ rbrace :: rest)) =
        escList k ++ '"' :: (':' :: (serVal v ++ (serMembersRest kvs ++ rbrace :: rest))) from by simp]
      rw [parseStringBody_escList]
      dsimp only
      rw [show skipWS (':' :: (serVal v ++ (serMembersRest kvs ++ rbrace :: rest))) =
        ':' :: (serVal v ++ (serMembersRest kvs ++ rbrace :: rest)) from
        skipWS_cons_of _ (by decide)]
      dsimp only
      rw [if_pos rfl]
      rw [ihV v (serMembersRest kvs ++ rbrace :: rest) hsv hnd]
      cases kvs with
      | nil => rfl
      | cons kv kvs' =>
        obtain ⟨k2, v2⟩ := kv
        show (parseMembers n ((serStr k2 ++ ':' :: serVal v2 ++ serMembersRest kvs') ++ rbrace :: rest)).map _ = _
        rw [show (serStr k2 ++ ':' :: serVal v2 ++ serMembersRest kvs') ++ rbrace :: rest =
          serStr k2 ++ ':' :: (serVal v2 ++ (serMembersRest kvs' ++ rbrace :: rest)) from by simp]
        have hsz' : 1 + sizeJ v2 + sizeM kvs' ≤ n := by
          have e1 : sizeM ((k2, v2) :: kvs') = 1 + sizeJ v2 + sizeM kvs' := rfl
          omega
        rw [ihM k2 v2 kvs' rest hsz' hrest]
        rfl

mutual
theorem sizeJ_le : ∀ v : Json, sizeJ v ≤ (serVal v).length
  | .null => by decide
  | .bool true => by decide
  | .bool false => by decide
  | .num i => by
    show 1 ≤ (serInt i).length
    by_cases hneg : i < 0
    · rw [show serInt i = '-' :: natDigs i.natAbs from by simp [serInt, hneg]]
      simp
    · rw [show serInt i = natDigs i.toNat from by simp [serInt, hneg]]
      have := (natDigs_spec i.toNat).1
      have := List.length_pos.mpr this
      omega
  | .str s => by
    show 1 ≤ ('"' :: escList s ++ ['"']).length
    simp
  | .arr [] => by decide
  | .arr (x :: xs) => by
    have h1 := sizeJ_le x
    have h2 := sizeL_le xs
    show 1 + (1 + sizeJ x + sizeL xs) ≤ ('[' :: (serVal x ++ serElemsRest xs ++ [']'])).length
    simp only [List.length_cons, List.length_append]
    omega
  | .obj [] => by decide
  | .obj ((k, v) :: kvs) => by
    have h1 := sizeJ_le v
    have h2 := sizeM_le kvs
    show 1 + (1 + sizeJ v + sizeM kvs) ≤
      (lbrace :: (serStr k ++ ':' :: serVal v ++ serMembersRest kvs ++ [rbrace])).length
    simp only [List.length_cons, List.length_append]
    omega

theorem sizeL_le : ∀ xs : List Json, sizeL xs ≤ (serElemsRest xs).length
  | [] => by decide
  | x :: xs => by
    have h1 := sizeJ_le x
    have h2 := sizeL_le xs
    show 1 + sizeJ x + sizeL xs ≤ (',' :: (serVal x ++ serElemsRest xs)).length
    simp only [List.length_cons, List.length_append]
    omega

theorem sizeM_le : ∀ kvs : List (List Char × Json), sizeM kvs ≤ (serMembersRest kvs).length
  | [] => by decide
  | (k, v) :: kvs => by
    have h1 := sizeJ_le v
    have h2 := sizeM_le kvs
    show 1 + sizeJ v + sizeM kvs ≤
      (',' :: (serStr k ++ ':' :: serVal v ++ serMembersRest kvs)).length
    simp only [List.length_cons, List.length_append]
    omega
end

theorem parseJson_serVal (v : Json) : parseJson (serVal v) = some v := by
  unfold parseJson
  have hfuel : sizeJ v ≤ (serVal v).length + 1 := by have := sizeJ_le v; omega
  have h := (parse_ser ((serVal v).length + 1)).1 v [] hfuel rfl
  rw [List.append_nil] at h
  rw [h]
  rfl

/-! ### The sanitizer only trims brace-free material around a serialized object -/

theorem split_left {rem res x m' : List Char}
    (h : rem ++ res = x ++ lbrace :: m') (hrem : lbrace ∉ rem) :
    ∃ x', x = rem ++ x' ∧ res = x' ++ lbrace :: m' := by
  rcases List.append_eq_append_iff.mp h with ⟨a, ha1, ha2⟩ | ⟨a, ha1, ha2⟩
  · exact ⟨a, ha1, ha2⟩
  · cases a with
    | nil =>
      refine ⟨[], by simp [ha1], ?_⟩
      simpa using ha2.symm
    | cons c t =>
      exfalso
      have hc : c = lbrace := by
        have := congrArg (fun l => l.head?) ha2
        simpa using this.symm
      apply hrem
      rw [ha1, hc]
      simp
  
theorem split_right {rem res m' y : List Char}
    (h : res ++ rem = m' ++ rbrace :: y) (hrem : rbrace ∉ rem) :
    ∃ y', y = y' ++ rem ∧ res = m' ++ rbrace :: y' := by
  rcases List.append_eq_append_iff.mp h with ⟨a, ha1, ha2⟩ | ⟨a, ha1, ha2⟩
  · -- m' = res ++ a ∧ rem = a ++ rbrace :: y : rem contains rbrace, contradiction
    exfalso
    apply hrem
    rw [ha2]
    simp
  · -- res = m' ++ a ∧ rbrace :: y = a ++ rem
    cases a with
    | nil =>
      exfalso
      apply hrem
      have hr : rem = rbrace :: y := by simpa using ha2.symm
      rw [hr]
      simp
    | cons c t =>
      have hc : c = rbrace := by
        have := congrArg (fun l => l.head?) ha2
        simpa using this.symm
      have hy : y = t ++ rem := by
        have := congrArg List.tail ha2
        simpa using this
      exact ⟨t, hy, by rw [ha1, hc]⟩

theorem ws_list_no_lbrace {rem : List Char} (h : ∀ c ∈ rem, pyWS c = true) :
    lbrace ∉ rem := fun hm => absurd (h _ hm) (by decide)

theorem ws_list_no_rbrace {rem : List Char} (h : ∀ c ∈ rem, pyWS c = true) :
    rbrace ∉ rem := fun hm => absurd (h _ hm) (by decide)

theorem pyStrip_decomp (l : List Char) :
    ∃ remL remR, l = remL ++ pyStrip l ++ remR ∧
      (∀ c ∈ remL, pyWS c = true) ∧ (∀ c ∈ remR, pyWS c = true) := by
  refine ⟨l.takeWhile pyWS, ((l.dropWhile pyWS).reverse.takeWhile pyWS).reverse, ?_, ?_, ?_⟩
  · have h1 : l = l.takeWhile pyWS ++ l.dropWhile pyWS :=
      (List.takeWhile_append_dropWhile (p := pyWS) (l := l)).symm
    have h2 : l.dropWhile pyWS =
        pyStrip l ++ ((l.dropWhile pyWS).reverse.takeWhile pyWS).reverse := by
      have h3 := congrArg List.reverse
        (List.takeWhile_append_dropWhile (p := pyWS) (l := (l.dropWhile pyWS).reverse))
      rw [List.reverse_append, List.reverse_reverse] at h3
      exact h3.symm
    rw [List.append_assoc, ← h2, ← h1]
  · intro c hc; exact (mem_of_mem_takeWhile hc).1
  · intro c hc; exact (mem_of_mem_takeWhile (List.mem_reverse.mp hc)).1

theorem triple_decide_false {c1 c2 c3 : Char}
    (hb : ¬(c1 = btick ∧ c2 = btick ∧ c3 = btick)) :
    (decide (c1 = btick) && decide (c2 = btick) && decide (c3 = btick)) = false := by
  rcases Decidable.em (c1 = btick) with h1 | h1
  · rcases Decidable.em (c2 = btick) with h2 | h2
    · rcases Decidable.em (c3 = btick) with h3 | h3
      · exact absurd ⟨h1, h2, h3⟩ hb
      · simp [h3]
    · simp [h2]
  · simp [h1]

theorem ciJson_no_lbrace {d1 d2 d3 d4 : Char} (h : ciJson d1 d2 d3 d4 = true) :
    lbrace ∉ [d1, d2, d3, d4] := by
  simp only [ciJson, Bool.and_eq_true, decide_eq_true_eq] at h
  obtain ⟨⟨⟨h1, h2⟩, h3⟩, h4⟩ := h
  intro hm
  simp only [List.mem_cons, List.not_mem_nil, or_false] at hm
  rcases hm with hm | hm | hm | hm
  · rw [← hm] at h1; exact absurd h1 (by decide)
  · rw [← hm] at h2; exact absurd h2 (by decide)
  · rw [← hm] at h3; exact absurd h3 (by decide)
  · rw [← hm] at h4; exact absurd h4 (by decide)

theorem stripLeadFence_decomp (l : List Char) :
    ∃ rem, l = rem ++ stripLeadFence l ∧ lbrace ∉ rem := by
  rcases l with _ | ⟨c1, _ | ⟨c2, _ | ⟨c3, rest⟩⟩⟩
  · exact ⟨[], rfl, by simp⟩
  · exact ⟨[], rfl, by simp⟩
  · exact ⟨[], rfl, by simp⟩
  · by_cases hb : c1 = btick ∧ c2 = btick ∧ c3 = btick
    · obtain ⟨hb1, hb2, hb3⟩ := hb
      subst hb1; subst hb2; subst hb3
      rcases rest with _ | ⟨d1, _ | ⟨d2, _ | ⟨d3, _ | ⟨d4, rest2⟩⟩⟩⟩
      · exact ⟨[btick, btick, btick], by simp [stripLeadFence], by decide⟩
      · refine ⟨[btick, btick, btick] ++ [d1].takeWhile pyWS, ?_, ?_⟩
        · rw [show stripLeadFence [btick, btick, btick, d1] =
            [d1].dropWhile pyWS from by simp [stripLeadFence]]
          simp [List.takeWhile_append_dropWhile]
        · intro hc
          simp only [List.mem_append] at hc
          rcases hc with hc | hc
          · revert hc; decide
          · exact ws_list_no_lbrace (fun d hd => (mem_of_mem_takeWhile hd).1) hc
      · refine ⟨[btick, btick, btick] ++ [d1, d2].takeWhile pyWS, ?_, ?_⟩
        · rw [show stripLeadFence [btick, btick, btick, d1, d2] =
            [d1, d2].dropWhile pyWS from by simp [stripLeadFence]]
          simp [List.takeWhile_append_dropWhile]
        · intro hc
          simp only [List.mem_append] at hc
          rcases hc with hc | hc
          · revert hc; decide
          · exact ws_list_no_lbrace (fun d hd => (mem_of_mem_takeWhile hd).1) hc
      · refine ⟨[btick, btick, btick] ++ [d1, d2, d3].takeWhile pyWS, ?_, ?_⟩
        · rw [show stripLeadFence [btick, btick, btick, d1, d2, d3] =
            [d1, d2, d3].dropWhile pyWS from by simp [stripLeadFence]]
          simp [List.takeWhile_append_dropWhile]
        · intro hc
          simp only [List.mem_append] at hc
          rcases hc with hc | hc
          · revert hc; decide
          · exact ws_list_no_lbrace (fun d hd => (mem_of_mem_takeWhile hd).1) hc
      · by_cases hj : ciJson d1 d2 d3 d4 = true
        · refine ⟨[btick, btick, btick, d1, d2, d3, d4] ++ rest2.takeWhile pyWS, ?_, ?_⟩
          · rw [show stripLeadFence (btick :: btick :: btick :: d1 :: d2 :: d3 :: d4 :: rest2) =
              rest2.dropWhile pyWS from by simp [stripLeadFence, hj]]
            simp [List.takeWhile_append_dropWhile]
          · intro hc
            rcases List.mem_append.mp hc with hc | hc
            · simp only [List.mem_cons, List.not_mem_nil, or_false] at hc
              rcases hc with hc | hc | hc | hc | hc | hc | hc
              · exact absurd hc (by decide)
              · exact absurd hc (by decide)
              · exact absurd hc (by decide)
              · exact ciJson_no_lbrace hj (by rw [hc]; simp)
              · exact ciJson_no_lbrace hj (by rw [hc]; simp)
              · exact ciJson_no_lbrace hj (by rw [hc]; simp)
              · exact ciJson_no_lbrace hj (by rw [hc]; simp)
            · exact ws_list_no_lbrace (fun d hd => (mem_of_mem_takeWhile hd).1) hc
        · have hj' : ciJson d1 d2 d3 d4 = false := by simpa using hj
          refine ⟨[btick, btick, btick] ++
            (d1 :: d2 :: d3 :: d4 :: rest2).takeWhile pyWS, ?_, ?_⟩
          · rw [show stripLeadFence (btick :: btick :: btick :: d1 :: d2 :: d3 :: d4 :: rest2) =
              (d1 :: d2 :: d3 :: d4 :: rest2).dropWhile pyWS from by
                simp [stripLeadFence, hj']]
            simp [List.takeWhile_append_dropWhile]
          · intro hc
            simp only [List.mem_append] at hc
            rcases hc with hc | hc
            · revert hc; decide
            · exact ws_list_no_lbrace (fun d hd => (mem_of_mem_takeWhile hd).1) hc
    · refine ⟨[], ?_, by simp⟩
      rw [show stripLeadFence (c1 :: c2 :: c3 :: rest) = c1 :: c2 :: c3 :: rest from by
        simp [stripLeadFence, triple_decide_false hb]]
      simp

theorem stripTrailFence_decomp (l : List Char) :
    ∃ rem, l = stripTrailFence l ++ rem ∧ rbrace ∉ rem := by
  have hl : l = l.reverse.reverse := (List.reverse_reverse l).symm
  rcases hr : l.reverse with _ | ⟨c1, r1⟩
  · refine ⟨[], ?_, by simp⟩
    rw [show stripTrailFence l = l from by unfold stripTrailFence; rw [hr]]
    simp
  rcases r1 with _ | ⟨c2, r2⟩
  · refine ⟨[], ?_, by simp⟩
    rw [show stripTrailFence l = l from by unfold stripTrailFence; rw [hr]]
    simp
  rcases r2 with _ | ⟨c3, rr⟩
  · refine ⟨[], ?_, by simp⟩
    rw [show stripTrailFence l = l from by unfold stripTrailFence; rw [hr]]
    simp
  · by_cases hb : c1 = btick ∧ c2 = btick ∧ c3 = btick
    · obtain ⟨hb1, hb2, hb3⟩ := hb
      subst hb1; subst hb2; subst hb3
      refine ⟨(rr.takeWhile pyWS).reverse ++ [btick, btick, btick], ?_, ?_⟩
      · rw [show stripTrailFence l = (rr.dropWhile pyWS).reverse from by
          unfold stripTrailFence; rw [hr]; simp]
        conv_lhs => rw [hl, hr]
        rw [show (btick :: btick :: btick :: rr).reverse =
          rr.reverse ++ [btick, btick, btick] from by simp]
        conv_lhs =>
          rw [show rr = rr.takeWhile pyWS ++ rr.dropWhile pyWS from
            (List.takeWhile_append_dropWhile (p := pyWS) (l := rr)).symm]
        rw [List.reverse_append]
        simp [List.append_assoc]
      · intro hc
        rcases List.mem_append.mp hc with hc | hc
        · exact ws_list_no_rbrace
            (fun d hd => (mem_of_mem_takeWhile (List.mem_reverse.mp hd)).1) hc
        · revert hc; decide
    · refine ⟨[], ?_, by simp⟩
      rw [show stripTrailFence l = l from by
        unfold stripTrailFence; rw [hr]; simp [triple_decide_false hb]]
      simp

theorem stage_of_left_decomp {l res : List Char} (rem : List Char)
    (hdec : l = rem ++ res) (hrem : lbrace ∉ rem)
    {x mid y : List Char}
    (hform : l = x ++ lbrace :: (mid ++ rbrace :: y)) (hx : lbrace ∉ x) :
    ∃ x2, res = x2 ++ lbrace :: (mid ++ rbrace :: y) ∧ lbrace ∉ x2 := by
  have h : rem ++ res = x ++ lbrace :: (mid ++ rbrace :: y) := hdec.symm.trans hform
  obtain ⟨x2, hx1, hx2⟩ := split_left h hrem
  refine ⟨x2, hx2, fun hm => hx ?_⟩
  rw [hx1]
  exact List.mem_append.mpr (Or.inr hm)

theorem stage_of_right_decomp {l res : List Char} (rem : List Char)
    (hdec : l = res ++ rem) (hrem : rbrace ∉ rem)
    {x mid y : List Char}
    (hform : l = x ++ lbrace :: (mid ++ rbrace :: y)) (hy : rbrace ∉ y) :
    ∃ y2, res = x ++ lbrace :: (mid ++ rbrace :: y2) ∧ rbrace ∉ y2 := by
  have h : res ++ rem = (x ++ lbrace :: mid) ++ rbrace :: y := by
    rw [← hdec, hform]
    simp
  obtain ⟨y2, hy1, hy2⟩ := split_right h hrem
  refine ⟨y2, ?_, fun hm => hy ?_⟩
  · rw [hy2]
    simp
  · rw [hy1]
    exact List.mem_append.mpr (Or.inl hm)

theorem span_of_form {x mid y : List Char} (hx : lbrace ∉ x) (hy : rbrace ∉ y) :
    firstBraceSpan (x ++ lbrace :: (mid ++ rbrace :: y)) =
      some (lbrace :: (mid ++ [rbrace])) := by
  unfold firstBraceSpan
  have hx' : ∀ c ∈ x, (c != lbrace) = true := by
    intro c hc
    simp only [bne_iff_ne, ne_eq]
    exact fun he => hx (he ▸ hc)
  have hstopl : (fun c => c != lbrace) lbrace = false := by simp
  rw [dropWhile_append_of_all hx', dropWhile_cons_false (p := fun c => c != lbrace) hstopl]
  dsimp only
  have hyr : ∀ c ∈ y.reverse, (c != rbrace) = true := by
    intro c hc
    simp only [bne_iff_ne, ne_eq]
    exact fun he => hy (he ▸ List.mem_reverse.mp hc)
  rw [show (mid ++ rbrace :: y).reverse = y.reverse ++ rbrace :: mid.reverse from by simp]
  have hstopr : (fun c => c != rbrace) rbrace = false := by simp
  rw [dropWhile_append_of_all hyr, dropWhile_cons_false (p := fun c => c != rbrace) hstopr]
  simp

theorem serObj_shape (kvs : List (List Char × Json)) :
    ∃ mid, serVal (Json.obj kvs) = lbrace :: (mid ++ [rbrace]) := by
  cases kvs with
  | nil => exact ⟨[], rfl⟩
  | cons kv t =>
    obtain ⟨k, v⟩ := kv
    refine ⟨serStr k ++ ':' :: serVal v ++ serMembersRest t, ?_⟩
    rw [show serVal (Json.obj ((k, v) :: t)) =
      lbrace :: (serStr k ++ ':' :: serVal v ++ serMembersRest t ++ [rbrace]) from rfl]

/-- C2 counterexample: the claim allows arbitrary leading prose, but if the
prose itself contains an opening brace the regex span starts at that brace
and the candidate is not valid JSON, so the round trip fails. -/
theorem c2_cex :
    sanitize_and_parse_json
      (chars "\x7b oops\n```json\n\x7b\"a\": 1\x7d\n```") ≠
      Except.ok (Json.obj [(chars "a", Json.num 1)]) := by
  have h : sanitize_and_parse_json
      (chars "\x7b oops\n```json\n\x7b\"a\": 1\x7d\n```") =
      Except.error jsonDecodeErrMsg := rfl
  rw [h]
  simp

/-- C2 as amended: for every JSON object, serializing it and surrounding the
result with arbitrary leading text containing no opening brace and arbitrary
trailing text containing no closing brace (which covers ``` / ```json code
fences, whitespace and brace-free prose), the sanitizer/parser recovers
exactly the original object. -/
theorem c2_amended (kvs : List (List Char × Json)) (lead trail : List Char)
    (h1 : lbrace ∉ lead) (h2 : rbrace ∉ trail) :
    sanitize_and_parse_json (lead ++ serVal (Json.obj kvs) ++ trail) =
      .ok (Json.obj kvs) := by
  obtain ⟨mid, hmid⟩ := serObj_shape kvs
  have hform0 : lead ++ serVal (Json.obj kvs) ++ trail =
      lead ++ lbrace :: (mid ++ rbrace :: trail) := by
    rw [hmid]
    simp
  obtain ⟨remL, remR, hdec, hwsL, hwsR⟩ :=
    pyStrip_decomp (lead ++ serVal (Json.obj kvs) ++ trail)
  have hdec2 : lead ++ serVal (Json.obj kvs) ++ trail =
      remL ++ (pyStrip (lead ++ serVal (Json.obj kvs) ++ trail) ++ remR) := by
    simpa [List.append_assoc] using hdec
  obtain ⟨x1, hform1, hx1⟩ := stage_of_left_decomp remL hdec2
    (ws_list_no_lbrace hwsL) hform0 h1
  obtain ⟨y1, hform2, hy1⟩ := stage_of_right_decomp remR rfl
    (ws_list_no_rbrace hwsR) hform1 h2
  obtain ⟨remF, hdecF, hremF⟩ :=
    stripLeadFence_decomp (pyStrip (lead ++ serVal (Json.obj kvs) ++ trail))
  obtain ⟨x2, hform3, hx2⟩ := stage_of_left_decomp remF hdecF hremF hform2 hx1
  obtain ⟨remT, hdecT, hremT⟩ :=
    stripTrailFence_decomp
      (stripLeadFence (pyStrip (lead ++ serVal (Json.obj kvs) ++ trail)))
  obtain ⟨y3, hform4, hy3⟩ := stage_of_right_decomp remT hdecT hremT hform3 hy1
  unfold sanitize_and_parse_json
  dsimp only
  rw [hform4, span_of_form hx2 hy3]
  dsimp only
  rw [show lbrace :: (mid ++ [rbrace]) = serVal (Json.obj kvs) from hmid.symm,
    parseJson_serVal]

/-- Witness for C2 (amended): a concrete object wrapped in ```json fences
with surrounding prose and whitespace round-trips to itself. -/
theorem c2_witness :
    lbrace ∉ chars "Sure! Here is the JSON:\n```json\n" ∧
    rbrace ∉ chars "\n```\nHope this helps" ∧
    sanitize_and_parse_json
      (chars "Sure! Here is the JSON:\n```json\n" ++
        serVal (Json.obj [(chars "a", Json.num 1)]) ++
        chars "\n```\nHope this helps") =
      .ok (Json.obj [(chars "a", Json.num 1)]) :=
  ⟨by decide, by decide,
    c2_amended [(chars "a", Json.num 1)]
      (chars "Sure! Here is the JSON:\n```json\n")
      (chars "\n```\nHope this helps") (by decide) (by decide)⟩
